import Mathlib

/-!
A shallow embedding of the JSON parser in `src/src/json.rs` (a recursive-descent
parser written with the `winnow` combinator library), together with theorems
checking the specification's claims against it.

Modelling conventions:
* The Rust string input (`&mut &str`) is a `List Char`; consuming input advances
  to a suffix.
* A winnow parser returning `PResult<T>` is a function `List Char → PR T`:
  `.ok v rest` models success with advanced input, `.err rest` models an
  `ErrMode::Backtrack` error together with where the input cursor was left (in
  winnow a failing parser may leave the input partially advanced; only
  combinators such as `alt` and `opt` reset to a checkpoint), and `.panicked`
  models a Rust panic (the single `unwrap` in `parse_num`, line 85 of json.rs).
* `i64` values are integers; `digit1.parse_to::<i64>()` fails exactly when the
  digit run denotes a value above `i64::MAX`, as Rust's `str::parse::<i64>`
  does on unsigned digit strings, and winnow's `parse_to` resets the input to
  its checkpoint on the conversion failure.
* `f64` values are modelled exactly as `mant * 10 ^ exp10` decimals (`Dec`),
  not as rounded IEEE doubles: each numeric step the parser performs (parsing
  `"<int>.<frac>"`, scaling by `10f64.powi(exp as i32)`, negating) is exact
  decimal arithmetic, and no claim in scope depends on the final rounding of a
  double.  The `exp as i32` cast is modelled as the wrapping conversion it is.
* `HashMap<String, JsonValue>` is an association list built with
  overwrite-on-insert (`insKV`), matching winnow's accumulation into a
  `HashMap` through `insert`; claims about objects are read via `List.lookup`.
* Recursion through `parse_value` is made total with a fuel parameter; the top
  level `parse_json` supplies `length + 1` fuel, which is never exhausted since
  every recursive call strictly consumes input.  Fuel exhaustion is modelled as
  an error; no claim exercises it.
-/

namespace JsonRs

/-- Result of running a modelled winnow parser: success with the remaining
input, a backtrackable error with the input as the failing parser left it, or a
Rust panic. -/
inductive PR (α : Type) where
  | ok (val : α) (rest : List Char)
  | err (rest : List Char)
  | panicked
deriving DecidableEq

/-- Exact decimal stand-in for the `f64` values the parser computes: the value
`mant * 10 ^ exp10`. -/
structure Dec where
  mant : ℤ
  exp10 : ℤ
deriving DecidableEq

/-- Rational value of a `Dec`. -/
def Dec.val (d : Dec) : ℚ := (d.mant : ℚ) * (10 : ℚ) ^ d.exp10

/-- The numeric variant of json.rs (`enum Num`). -/
inductive Num where
  | Int (n : ℤ)
  | Float (d : Dec)
deriving DecidableEq

/-- The value tree of json.rs (`enum JsonValue`); `String` payloads are char
lists and the `Object` map is an insertion-built association list. -/
inductive JsonValue where
  | Null
  | Bool (b : Bool)
  | Number (n : Num)
  | String (s : List Char)
  | Array (elems : List JsonValue)
  | Object (entries : List (List Char × JsonValue))

/-- Char list of a string literal (input shorthand). -/
def cs (s : String) : List Char := s.data

/-- The whitespace class of winnow's `multispace0`. -/
def isWs (c : Char) : Bool := c == ' ' || c == '\t' || c == '\n' || c == '\r'

/-- `multispace0`: drop leading whitespace. -/
def dropWs (l : List Char) : List Char := l.dropWhile isWs

/-- Numeric value of a digit run (the accumulator form of `str::parse` on an
unsigned digit string). -/
def natOfDigits (ds : List Char) : ℕ :=
  ds.foldl (fun a c => 10 * a + (c.toNat - 48)) 0

/-- `i64::MAX`. -/
def i64max : ℕ := 9223372036854775807

/-- Wrapping `as i32` conversion applied to the exponent (`exp as i32`,
json.rs line 94). -/
def i32wrap (z : ℤ) : ℤ := (z + 2 ^ 31) % 2 ^ 32 - 2 ^ 31

/-- Decimal digits of `n`, most significant first, by fuel-guarded division
(kernel-reducible rendering of Rust's `{}` formatting for an unsigned value). -/
def natReprAux : ℕ → ℕ → List Char
  | 0, _ => []
  | fuel + 1, n =>
      if n = 0 then [] else natReprAux fuel (n / 10) ++ [Nat.digitChar (n % 10)]

/-- Decimal rendering of a natural number, as Rust's `format!("{}", n)`
produces it (no leading zeros; `0` renders as `"0"`). -/
def natRepr (n : ℕ) : List Char := if n = 0 then cs "0" else natReprAux n n

/-- Modelled from Rust: `str::parse::<f64>` restricted to the `"<digits>.<digits>"`
shapes that the call site in `parse_num` (json.rs line 85) produces, returning
the exact decimal value rather than the rounded double; `none` on any other
shape, which `parse_num` turns into a panic (the `unwrap`). -/
def decOfDotDigits (s : List Char) : Option Dec :=
  let ip := s.takeWhile Char.isDigit
  let r1 := s.dropWhile Char.isDigit
  if ip = [] then none
  else
    match r1 with
    | '.' :: fr =>
        if fr = [] then none
        else if fr.all Char.isDigit then
          some ⟨(natOfDigits ip : ℤ) * 10 ^ fr.length + (natOfDigits fr : ℤ),
                -(fr.length : ℤ)⟩
        else none
    | _ => none

/-- Does the input start with the character `c`? -/
def headIs (c : Char) : List Char → Bool
  | d :: _ => d == c
  | [] => false

/-- `opt(alt(("+", "-")))` as used twice in `parse_num`: consume a leading
sign if present, report whether it was `-`. -/
def optSign : List Char → Bool × List Char
  | c :: r =>
      if c = '+' then (false, r)
      else if c = '-' then (true, r)
      else (false, c :: r)
  | [] => (false, [])

/-- winnow's literal (`tag`) parser: consume exactly `s`, else fail without
consuming. -/
def tag (s : List Char) (inp : List Char) : PR Unit :=
  if s.isPrefixOf inp then .ok () (inp.drop s.length) else .err inp

/-- Map over a parse result. -/
def pmap (f : α → β) : PR α → PR β
  | .ok v r => .ok (f v) r
  | .err r => .err r
  | .panicked => .panicked

/-- winnow's two-way `alt`: try `p`; on a backtrack error reset to the
checkpoint and run `q` (the input after a total failure is wherever the last
branch left it, as in winnow). -/
def alt2 (p q : List Char → PR α) (inp : List Char) : PR α :=
  match p inp with
  | .ok v r => .ok v r
  | .panicked => .panicked
  | .err _ => q inp

/-- `sep_with_space(parser)` from json.rs lines 52-67, at the single-character
parsers it is used with: `multispace0`, the character, `multispace0`.  On
failure the cursor is left after the consumed leading whitespace, as in
winnow. -/
def sep_with_space (c : Char) (inp : List Char) : PR Unit :=
  let i1 := dropWs inp
  if headIs c i1 then .ok () (dropWs i1.tail) else .err i1

/-- `parse_null` (json.rs lines 69-71). -/
def parse_null (inp : List Char) : PR Unit := tag (cs "null") inp

/-- `parse_bool` (json.rs lines 73-75): `alt(("true", "false")).parse_to()`. -/
def parse_bool (inp : List Char) : PR Bool :=
  alt2 (fun i => pmap (fun _ => true) (tag (cs "true") i))
       (fun i => pmap (fun _ => false) (tag (cs "false") i)) inp

/-- The exponent tail of `parse_num` (json.rs lines 87-95): optional sign,
`digit1.parse_to::<i64>()`, then `v *= 10f64.powi(exp as i32)`, and the
leading-sign negation from line 96. -/
def parseExpTail (sign : Bool) (v0 : Dec) (i5 : List Char) : PR Num :=
  let e0 := optSign i5
  let es := e0.2.takeWhile Char.isDigit
  let i6 := e0.2.dropWhile Char.isDigit
  if es = [] then .err e0.2
  else if i64max < natOfDigits es then .err e0.2
  else
    let ex : ℤ := if e0.1 then -(natOfDigits es : ℤ) else (natOfDigits es : ℤ)
    .ok (.Float (if sign then ⟨-v0.mant, v0.exp10 + i32wrap ex⟩
                 else ⟨v0.mant, v0.exp10 + i32wrap ex⟩)) i6

/-- `parse_num` (json.rs lines 77-100).  Sign, then `digit1.parse_to::<i64>()`;
if a `.` follows, a fractional digit run, the `format!("{}.{}", num, frac)`
round-trip through `f64` (whose failure would be the `unwrap` panic), and an
optional exponent handled by `parseExpTail`; otherwise the integer result.
The exponent branch exists only inside the fractional branch, exactly as in
the source. -/
def parse_num (inp : List Char) : PR Num :=
  let s0 := optSign inp
  let sign := s0.1
  let i1 := s0.2
  let ds := i1.takeWhile Char.isDigit
  let i2 := i1.dropWhile Char.isDigit
  if ds = [] then .err i1
  else if i64max < natOfDigits ds then .err i1
  else
    let num : ℕ := natOfDigits ds
    if headIs '.' i2 then
      let i3 := i2.tail
      let fs := i3.takeWhile Char.isDigit
      let i4 := i3.dropWhile Char.isDigit
      if fs = [] then .err i3
      else if i64max < natOfDigits fs then .err i3
      else
        let frac : ℕ := natOfDigits fs
        match decOfDotDigits (natRepr num ++ '.' :: natRepr frac) with
        | none => .panicked
        | some v0 =>
            if headIs 'e' i4 || headIs 'E' i4 then parseExpTail sign v0 i4.tail
            else .ok (.Float (if sign then ⟨-v0.mant, v0.exp10⟩ else v0)) i4
    else .ok (.Int (if sign then -(num : ℤ) else (num : ℤ))) i2

/-- `parse_string` (json.rs lines 102-105): `delimited('"', take_until(0.., '"'), '"')`,
copying the matched span.  When no closing quote exists, `take_until` fails
without consuming, so the error leaves the cursor just past the opening quote. -/
def parse_string (inp : List Char) : PR (List Char) :=
  if headIs '"' inp then
    let r := inp.tail
    let rest := r.dropWhile (fun c => !(c == '"'))
    if headIs '"' rest then .ok (r.takeWhile (fun c => !(c == '"'))) rest.tail
    else .err r
  else .err inp

/-- The iteration of winnow's `separated`: checkpoint, try the separator then
the element; on either failing, reset to the checkpoint and return what was
accumulated.  Fuel bounds the iteration count (every separator in json.rs
consumes at least one character, so `length + 1` fuel is never exhausted). -/
def sepLoop (p : List Char → PR α) (sep : List Char → PR Unit) :
    ℕ → List α → List Char → PR (List α)
  | 0, _, inp => .err inp
  | fuel + 1, acc, inp =>
      match sep inp with
      | .panicked => .panicked
      | .err _ => .ok acc inp
      | .ok _ i2 =>
          match p i2 with
          | .panicked => .panicked
          | .err _ => .ok acc inp
          | .ok v i3 => sepLoop p sep fuel (acc ++ [v]) i3

/-- winnow's `separated(0.., p, sep)`: a failing first element resets and
yields the empty accumulation. -/
def separated0 (p : List Char → PR α) (sep : List Char → PR Unit)
    (fuel : ℕ) (inp : List Char) : PR (List α) :=
  match p inp with
  | .panicked => .panicked
  | .err _ => .ok [] inp
  | .ok v i2 => sepLoop p sep fuel [v] i2

/-- winnow's `separated(1.., p, sep)`: a failing first element is an error. -/
def separated1 (p : List Char → PR α) (sep : List Char → PR Unit)
    (fuel : ℕ) (inp : List Char) : PR (List α) :=
  match p inp with
  | .panicked => .panicked
  | .err r => .err r
  | .ok v i2 => sepLoop p sep fuel [v] i2

/-- `parse_array` (json.rs lines 107-113), over a given value parser `pv`:
`delimited(sep_with_space('['), separated(0.., parse_value, sep_with_space(',')),
sep_with_space(']'))`. -/
def parse_array (pv : List Char → PR JsonValue) (fuel : ℕ)
    (inp : List Char) : PR (List JsonValue) :=
  match sep_with_space '[' inp with
  | .panicked => .panicked
  | .err r => .err r
  | .ok _ i1 =>
      match separated0 pv (sep_with_space ',') fuel i1 with
      | .panicked => .panicked
      | .err r => .err r
      | .ok vs i2 =>
          match sep_with_space ']' i2 with
          | .panicked => .panicked
          | .err r => .err r
          | .ok _ i3 => .ok vs i3

/-- One key-value pair: `separated_pair(parse_string, sep_with_space(':'),
parse_value)` (json.rs line 121). -/
def parse_kv (pv : List Char → PR JsonValue) (inp : List Char) :
    PR (List Char × JsonValue) :=
  match parse_string inp with
  | .panicked => .panicked
  | .err r => .err r
  | .ok k i1 =>
      match sep_with_space ':' i1 with
      | .panicked => .panicked
      | .err r => .err r
      | .ok _ i2 =>
          match pv i2 with
          | .panicked => .panicked
          | .err r => .err r
          | .ok v i3 => .ok (k, v) i3

/-- `HashMap::insert`: overwrite any earlier binding of `k`. -/
def insKV (m : List (List Char × JsonValue)) (k : List Char) (v : JsonValue) :
    List (List Char × JsonValue) :=
  (k, v) :: m.filter (fun p => !(p.1 == k))

/-- Fold a pair sequence into the map, in order, as winnow's `separated`
accumulates into a `HashMap`. -/
def buildMap (ps : List (List Char × JsonValue)) : List (List Char × JsonValue) :=
  ps.foldl (fun m kv => insKV m kv.1 kv.2) []

/-- `parse_object` (json.rs lines 115-124): at least one pair
(`separated(1.., ..)`), braces and separators whitespace-padded. -/
def parse_object (pv : List Char → PR JsonValue) (fuel : ℕ)
    (inp : List Char) : PR (List (List Char × JsonValue)) :=
  match sep_with_space '{' inp with
  | .panicked => .panicked
  | .err r => .err r
  | .ok _ i1 =>
      match separated1 (parse_kv pv) (sep_with_space ',') fuel i1 with
      | .panicked => .panicked
      | .err r => .err r
      | .ok ps i2 =>
          match sep_with_space '}' i2 with
          | .panicked => .panicked
          | .err r => .err r
          | .ok _ i3 => .ok (buildMap ps) i3

/-- `parse_value` (json.rs lines 126-136): the six recognizers in the source's
fixed order, through `alt`.  Fuel decreases at each recursive level; the entry
point supplies enough for any input. -/
def parse_value : ℕ → List Char → PR JsonValue
  | 0, inp => .err inp
  | fuel + 1, inp =>
      alt2 (fun i => pmap (fun _ => JsonValue.Null) (parse_null i))
     (alt2 (fun i => pmap JsonValue.Bool (parse_bool i))
     (alt2 (fun i => pmap JsonValue.Number (parse_num i))
     (alt2 (fun i => pmap JsonValue.String (parse_string i))
     (alt2 (fun i => pmap JsonValue.Array (parse_array (parse_value fuel) fuel i))
           (fun i => pmap JsonValue.Object (parse_object (parse_value fuel) fuel i))))))
      inp

/-- Outcome of the top-level `parse_json` (json.rs lines 47-50): the anyhow
`Result`, or a panic. -/
inductive ParseOutcome where
  | ok (v : JsonValue)
  | error
  | panicked

/-- `parse_json` (json.rs lines 47-50): run `parse_value` on the whole input,
discarding any unconsumed suffix; map a parser error to an anyhow error. -/
def parse_json (s : List Char) : ParseOutcome :=
  match parse_value (s.length + 1) s with
  | .ok v _ => .ok v
  | .err _ => .error
  | .panicked => .panicked

/-! ### Literal trees: grammar-shaped inputs with explicit whitespace

To state whitespace-insensitivity (C9) and the duplicate-key behaviour (C8)
as universal theorems, inputs are generated from literal trees that carry the
exact characters of each token and an explicit whitespace annotation at every
position the grammar allows one — immediately around the brackets, braces,
commas and colons.  `renderT` linearizes a tree, `semT` gives the value the
parser computes for it (mirroring `parse_num`'s arithmetic exactly), `stripT`
erases all whitespace annotations. -/

/-- The tail of a numeric literal: nothing, a fractional part, or a
fractional part with an exponent (the grammar as implemented hangs the
exponent under the fractional branch). -/
inductive NumTail : Type where
  | tint : NumTail
  | tfrac (fs : List Char) : NumTail
  | texp (fs : List Char) (eneg : Bool) (es : List Char) : NumTail

mutual
/-- A literal value with whitespace annotations at the delimiter slots. -/
inductive JTree : Type where
  | jnull : JTree
  | jbool (b : Bool) : JTree
  | jnum (neg : Bool) (ds : List Char) (nt : NumTail) : JTree
  | jstr (s : List Char) : JTree
  | jarr (w1 w2 : List Char) (es : JElems) (w3 w4 : List Char) : JTree
  | jobj (w1 w2 : List Char) (ps : JPairs) (w3 w4 : List Char) : JTree

/-- The element list of an array literal. -/
inductive JElems : Type where
  | enil : JElems
  | emore (t : JTree) (ts : JTail) : JElems

/-- Subsequent array elements, each preceded by a whitespace-padded comma. -/
inductive JTail : Type where
  | tnil : JTail
  | tcons (w1 w2 : List Char) (t : JTree) (ts : JTail) : JTail

/-- The nonempty pair list of an object literal: each pair is a key, a
whitespace-padded colon and a value; later pairs are preceded by a
whitespace-padded comma. -/
inductive JPairs : Type where
  | pone (k : List Char) (w1 w2 : List Char) (v : JTree) : JPairs
  | pcons (k : List Char) (w1 w2 : List Char) (v : JTree)
      (w3 w4 : List Char) (ps : JPairs) : JPairs
end

/-- Characters of a rendered numeric literal. -/
def renderNum (neg : Bool) (ds : List Char) : NumTail → List Char
  | .tint => (if neg then ['-'] else []) ++ ds
  | .tfrac fs => (if neg then ['-'] else []) ++ ds ++ '.' :: fs
  | .texp fs eneg es =>
      (if neg then ['-'] else []) ++ ds ++ '.' :: fs ++
        'e' :: ((if eneg then ['-'] else []) ++ es)

mutual
/-- Characters of a rendered literal tree. -/
def renderT : JTree → List Char
  | .jnull => cs "null"
  | .jbool true => cs "true"
  | .jbool false => cs "false"
  | .jnum neg ds nt => renderNum neg ds nt
  | .jstr s => '"' :: (s ++ ['"'])
  | .jarr w1 w2 es w3 w4 =>
      w1 ++ '[' :: (w2 ++ (renderE es ++ (w3 ++ ']' :: w4)))
  | .jobj w1 w2 ps w3 w4 =>
      w1 ++ '{' :: (w2 ++ (renderP ps ++ (w3 ++ '}' :: w4)))

def renderE : JElems → List Char
  | .enil => []
  | .emore t ts => renderT t ++ renderTail ts

def renderTail : JTail → List Char
  | .tnil => []
  | .tcons w1 w2 t ts => w1 ++ ',' :: (w2 ++ (renderT t ++ renderTail ts))

def renderP : JPairs → List Char
  | .pone k w1 w2 v => '"' :: (k ++ '"' :: (w1 ++ ':' :: (w2 ++ renderT v)))
  | .pcons k w1 w2 v w3 w4 ps =>
      '"' :: (k ++ '"' :: (w1 ++ ':' :: (w2 ++
        (renderT v ++ (w3 ++ ',' :: (w4 ++ renderP ps))))))
end

/-- The `Num` value `parse_num` computes for a rendered numeric literal:
integer literals keep their value; fractional literals go through the
reformatting of the already-parsed fractional integer (`natRepr (natOfDigits
fs)`), and an exponent shifts the decimal exponent through the wrapping
`as i32` cast. -/
def semNum (neg : Bool) (ds : List Char) : NumTail → Num
  | .tint => .Int (if neg then -(natOfDigits ds : ℤ) else (natOfDigits ds : ℤ))
  | .tfrac fs =>
      let L := (natRepr (natOfDigits fs)).length
      let m := (natOfDigits ds : ℤ) * 10 ^ L + (natOfDigits fs : ℤ)
      .Float (if neg then ⟨-m, -(L : ℤ)⟩ else ⟨m, -(L : ℤ)⟩)
  | .texp fs eneg es =>
      let L := (natRepr (natOfDigits fs)).length
      let m := (natOfDigits ds : ℤ) * 10 ^ L + (natOfDigits fs : ℤ)
      let ex : ℤ := if eneg then -(natOfDigits es : ℤ) else (natOfDigits es : ℤ)
      .Float (if neg then ⟨-m, -(L : ℤ) + i32wrap ex⟩ else ⟨m, -(L : ℤ) + i32wrap ex⟩)

mutual
/-- The value the parser produces for a rendered tree. -/
def semT : JTree → JsonValue
  | .jnull => .Null
  | .jbool b => .Bool b
  | .jnum neg ds nt => .Number (semNum neg ds nt)
  | .jstr s => .String s
  | .jarr _ _ es _ _ => .Array (semE es)
  | .jobj _ _ ps _ _ => .Object (buildMap (semP ps))

def semE : JElems → List JsonValue
  | .enil => []
  | .emore t ts => semT t :: semTail ts

def semTail : JTail → List JsonValue
  | .tnil => []
  | .tcons _ _ t ts => semT t :: semTail ts

def semP : JPairs → List (List Char × JsonValue)
  | .pone k _ _ v => [(k, semT v)]
  | .pcons k _ _ v _ _ ps => (k, semT v) :: semP ps
end

mutual
/-- Erase every whitespace annotation. -/
def stripT : JTree → JTree
  | .jnull => .jnull
  | .jbool b => .jbool b
  | .jnum neg ds nt => .jnum neg ds nt
  | .jstr s => .jstr s
  | .jarr _ _ es _ _ => .jarr [] [] (stripE es) [] []
  | .jobj _ _ ps _ _ => .jobj [] [] (stripP ps) [] []

def stripE : JElems → JElems
  | .enil => .enil
  | .emore t ts => .emore (stripT t) (stripTail ts)

def stripTail : JTail → JTail
  | .tnil => .tnil
  | .tcons _ _ t ts => .tcons [] [] (stripT t) (stripTail ts)

def stripP : JPairs → JPairs
  | .pone k _ _ v => .pone k [] [] (stripT v)
  | .pcons k _ _ v _ _ ps => .pcons k [] [] (stripT v) [] [] (stripP ps)
end

/-- A whitespace annotation holds only whitespace. -/
def wsOk (w : List Char) : Bool := w.all isWs

/-- A nonempty digit run whose value fits in `i64` (so that the overflow
branch of `parse_to` is not taken). -/
def wfDigits (ds : List Char) : Bool :=
  !ds.isEmpty && ds.all Char.isDigit && decide (natOfDigits ds ≤ i64max)

/-- Well-formed numeric tail. -/
def wfNT : NumTail → Bool
  | .tint => true
  | .tfrac fs => wfDigits fs
  | .texp fs _ es => wfDigits fs && wfDigits es

mutual
/-- Well-formed tree: digit runs in range, strings and keys quote-free,
whitespace annotations whitespace-only. -/
def wfT : JTree → Bool
  | .jnull => true
  | .jbool _ => true
  | .jnum _ ds nt => wfDigits ds && wfNT nt
  | .jstr s => s.all (fun c => !(c == '"'))
  | .jarr w1 w2 es w3 w4 => wsOk w1 && wsOk w2 && wsOk w3 && wsOk w4 && wfE es
  | .jobj w1 w2 ps w3 w4 => wsOk w1 && wsOk w2 && wsOk w3 && wsOk w4 && wfP ps

def wfE : JElems → Bool
  | .enil => true
  | .emore t ts => wfT t && wfTail ts

def wfTail : JTail → Bool
  | .tnil => true
  | .tcons w1 w2 t ts => wsOk w1 && wsOk w2 && wfT t && wfTail ts

def wfP : JPairs → Bool
  | .pone k w1 w2 v => k.all (fun c => !(c == '"')) && wsOk w1 && wsOk w2 && wfT v
  | .pcons k w1 w2 v w3 w4 ps =>
      k.all (fun c => !(c == '"')) && wsOk w1 && wsOk w2 && wfT v &&
        wsOk w3 && wsOk w4 && wfP ps
end

mutual
/-- Size measure for the strong induction over mutual trees. -/
def szT : JTree → ℕ
  | .jnull => 1
  | .jbool _ => 1
  | .jnum _ _ _ => 1
  | .jstr _ => 1
  | .jarr _ _ es _ _ => szE es + 1
  | .jobj _ _ ps _ _ => szP ps + 1

def szE : JElems → ℕ
  | .enil => 1
  | .emore t ts => szT t + szTail ts + 1

def szTail : JTail → ℕ
  | .tnil => 1
  | .tcons _ _ t ts => szT t + szTail ts + 1

def szP : JPairs → ℕ
  | .pone _ _ _ v => szT v + 1
  | .pcons _ _ _ v _ _ ps => szT v + szP ps + 1
end

/-- `x` is `y` with some leading whitespace already consumed. -/
def WsSlack (x y : List Char) : Prop :=
  ∃ w, w.all isWs = true ∧ w ++ x = y

/-- What may follow a rendered value: end of input, or whitespace, or a
delimiter that closes or continues the surrounding structure. -/
def RestOk (rest : List Char) : Prop :=
  rest = [] ∨ ∃ c t, rest = c :: t ∧
    (isWs c = true ∨ c = ',' ∨ c = ']' ∨ c = '}')

/-- What follows the inside of a bracketed structure: whitespace and then the
closing bracket. -/
def CloseOk (rest : List Char) : Prop :=
  ∃ w c t, rest = w ++ c :: t ∧ w.all isWs = true ∧ (c = ']' ∨ c = '}')

/-- Correctness statement for one tree: from any whitespace-slack position,
the dispatcher parses the rendered tree to its semantics and stops with some
leading whitespace of the remainder consumed. -/
def PT (t : JTree) : Prop :=
  ∀ x rest fuel, wfT t = true → RestOk rest → WsSlack x (renderT t ++ rest) →
    (renderT t ++ rest).length < fuel →
    ∃ w' r', rest = w' ++ r' ∧ w'.all isWs = true ∧
      parse_value fuel x = .ok (semT t) r'

/-- Correctness statement for an element list under `separated0`. -/
def PE (es : JElems) : Prop :=
  ∀ x rest fuel lf, wfE es = true → CloseOk rest →
    WsSlack x (renderE es ++ rest) →
    (renderE es ++ rest).length < fuel → (renderE es ++ rest).length < lf →
    ∃ w' r', rest = w' ++ r' ∧ w'.all isWs = true ∧
      separated0 (parse_value fuel) (sep_with_space ',') lf x = .ok (semE es) r'

/-- Correctness statement for the comma-element loop over an array tail. -/
def PTail (ts : JTail) : Prop :=
  ∀ acc x rest fuel lf, wfTail ts = true → CloseOk rest →
    WsSlack x (renderTail ts ++ rest) →
    (renderTail ts ++ rest).length < fuel →
    (renderTail ts ++ rest).length < lf →
    ∃ w' r', rest = w' ++ r' ∧ w'.all isWs = true ∧
      sepLoop (parse_value fuel) (sep_with_space ',') lf acc x =
        .ok (acc ++ semTail ts) r'

/-- Correctness statement for a pair list under `separated1`. -/
def PP (ps : JPairs) : Prop :=
  ∀ rest fuel lf, wfP ps = true → CloseOk rest →
    (renderP ps ++ rest).length < fuel → (renderP ps ++ rest).length < lf →
    ∃ w' r', rest = w' ++ r' ∧ w'.all isWs = true ∧
      separated1 (parse_kv (parse_value fuel)) (sep_with_space ',') lf
        (renderP ps ++ rest) = .ok (semP ps) r'

/-- Correctness statement for the comma-pair loop over the remaining pairs,
entered just after a parsed pair with the padded comma still ahead. -/
def PPL (ps : JPairs) : Prop :=
  ∀ acc x rest fuel lf w3 w4, wfP ps = true → wsOk w3 = true → wsOk w4 = true →
    CloseOk rest → WsSlack x (w3 ++ ',' :: (w4 ++ (renderP ps ++ rest))) →
    (w3 ++ ',' :: (w4 ++ (renderP ps ++ rest))).length < fuel →
    (w3 ++ ',' :: (w4 ++ (renderP ps ++ rest))).length < lf →
    ∃ w' r', rest = w' ++ r' ∧ w'.all isWs = true ∧
      sepLoop (parse_kv (parse_value fuel)) (sep_with_space ',') lf acc x =
        .ok (acc ++ semP ps) r'

/-! ### Lemmas: digit runs, decimal rendering, and the integer path of
`parse_num` -/

theorem takeWhile_all_append (p : Char → Bool) (ds rest : List Char)
    (hds : ds.all p = true)
    (hrest : rest = [] ∨ ∃ c t, rest = c :: t ∧ p c = false) :
    (ds ++ rest).takeWhile p = ds ∧ (ds ++ rest).dropWhile p = rest := by
  induction ds with
  | nil =>
      simp only [List.nil_append]
      rcases hrest with rfl | ⟨c, t, rfl, hc⟩
      · simp
      · simp [List.takeWhile_cons, List.dropWhile_cons, hc]
  | cons d ds ih =>
      simp only [List.all_cons, Bool.and_eq_true] at hds
      have h2 := ih hds.2
      simp [List.takeWhile_cons, List.dropWhile_cons, hds.1, h2.1, h2.2]

theorem natOfDigits_snoc (xs : List Char) (c : Char) :
    natOfDigits (xs ++ [c]) = 10 * natOfDigits xs + (c.toNat - 48) := by
  simp [natOfDigits, List.foldl_append]

theorem digitChar_spec (k : ℕ) (h : k < 10) :
    (Nat.digitChar k).isDigit = true ∧ (Nat.digitChar k).toNat - 48 = k := by
  interval_cases k <;> exact ⟨by decide, by decide⟩

theorem natReprAux_spec : ∀ fuel n, n ≤ fuel →
    (natReprAux fuel n).all Char.isDigit = true ∧
    natOfDigits (natReprAux fuel n) = n ∧ (n ≠ 0 → natReprAux fuel n ≠ []) := by
  intro fuel
  induction fuel with
  | zero =>
      intro n hn
      have h0 : n = 0 := Nat.le_zero.mp hn
      subst h0
      exact ⟨rfl, rfl, fun h => absurd rfl h⟩
  | succ f ih =>
      intro n hn
      by_cases h0 : n = 0
      · subst h0; exact ⟨rfl, rfl, fun h => absurd rfl h⟩
      · have hlt : n / 10 < n := Nat.div_lt_self (Nat.pos_of_ne_zero h0) (by norm_num)
        obtain ⟨ha, hv, -⟩ := ih (n / 10) (by omega)
        have hc := digitChar_spec (n % 10) (Nat.mod_lt _ (by norm_num))
        refine ⟨?_, ?_, ?_⟩
        · simp [natReprAux, h0, List.all_append, ha, hc.1]
        · simp only [natReprAux, if_neg h0]
          rw [natOfDigits_snoc, hv, hc.2]
          omega
        · simp [natReprAux, h0]

theorem natRepr_spec (n : ℕ) :
    (natRepr n).all Char.isDigit = true ∧ natOfDigits (natRepr n) = n ∧
    natRepr n ≠ [] := by
  by_cases h0 : n = 0
  · subst h0; exact ⟨by decide, by decide, by decide⟩
  · have h := natReprAux_spec n n le_rfl
    simp only [natRepr, if_neg h0]
    exact ⟨h.1, h.2.1, h.2.2 h0⟩

theorem decOfDotDigits_repr (a b : ℕ) :
    decOfDotDigits (natRepr a ++ '.' :: natRepr b) =
      some ⟨(a : ℤ) * 10 ^ (natRepr b).length + (b : ℤ),
            -((natRepr b).length : ℤ)⟩ := by
  obtain ⟨ha1, ha2, ha3⟩ := natRepr_spec a
  obtain ⟨hb1, hb2, hb3⟩ := natRepr_spec b
  have hsplit := takeWhile_all_append Char.isDigit (natRepr a) ('.' :: natRepr b)
      ha1 (Or.inr ⟨'.', natRepr b, rfl, by decide⟩)
  simp only [decOfDotDigits, hsplit.1, hsplit.2, if_neg ha3, if_neg hb3, hb1,
    if_pos, ha2, hb2]

theorem digit_ne_special {c : Char} (h : c.isDigit = true) :
    c ≠ '+' ∧ c ≠ '-' ∧ c ≠ '.' ∧ c ≠ 'e' ∧ c ≠ 'E' :=
  ⟨fun e => absurd h (by rw [e]; decide), fun e => absurd h (by rw [e]; decide),
   fun e => absurd h (by rw [e]; decide), fun e => absurd h (by rw [e]; decide),
   fun e => absurd h (by rw [e]; decide)⟩

theorem digit_ne_keyword {c : Char} (h : c.isDigit = true) :
    c ≠ 'n' ∧ c ≠ 't' ∧ c ≠ 'f' ∧ c ≠ '"' ∧ c ≠ '[' ∧ c ≠ '{' :=
  ⟨fun e => absurd h (by rw [e]; decide), fun e => absurd h (by rw [e]; decide),
   fun e => absurd h (by rw [e]; decide), fun e => absurd h (by rw [e]; decide),
   fun e => absurd h (by rw [e]; decide), fun e => absurd h (by rw [e]; decide)⟩

theorem optSign_digit {c : Char} {t : List Char} (h : c.isDigit = true) :
    optSign (c :: t) = (false, c :: t) := by
  obtain ⟨h1, h2, -⟩ := digit_ne_special h
  simp [optSign, h1, h2]

/-- Sign prefixes accepted before the digits of a number, with the `-` flag
they set. -/
def SignPre (pre : List Char) (neg : Bool) : Prop :=
  pre = [] ∧ neg = false ∨ pre = ['+'] ∧ neg = false ∨ pre = ['-'] ∧ neg = true

/-- A remainder that cannot extend the integer part of a number: empty, or
starting with a non-digit that is not `.`. -/
def IntStop (rest : List Char) : Prop :=
  rest = [] ∨ ∃ c t, rest = c :: t ∧ c.isDigit = false ∧ c ≠ '.'

/-- The integer path of `parse_num`: an optionally signed digit run whose
value fits in `i64`, followed by anything that cannot extend it, parses to
`Int` with exactly the digits consumed. -/
theorem parse_num_int (pre ds rest : List Char) (neg : Bool)
    (hpre : SignPre pre neg) (h1 : ds ≠ []) (h2 : ds.all Char.isDigit = true)
    (h3 : natOfDigits ds ≤ i64max) (h4 : IntStop rest) :
    parse_num (pre ++ ds ++ rest) =
      .ok (.Int (if neg then -(natOfDigits ds : ℤ) else (natOfDigits ds : ℤ)))
        rest := by
  have h4' : rest = [] ∨ ∃ c t, rest = c :: t ∧ c.isDigit = false := by
    rcases h4 with rfl | ⟨c, t, rfl, hc, -⟩
    · exact Or.inl rfl
    · exact Or.inr ⟨c, t, rfl, hc⟩
  have hsplit := takeWhile_all_append Char.isDigit ds rest h2 h4'
  have hdot : headIs '.' rest = false := by
    rcases h4 with rfl | ⟨c, t, rfl, -, hc⟩
    · rfl
    · simp [headIs, hc]
  have hopt : optSign (pre ++ ds ++ rest) = (neg, ds ++ rest) := by
    rcases hpre with ⟨rfl, rfl⟩ | ⟨rfl, rfl⟩ | ⟨rfl, rfl⟩
    · obtain ⟨c, t, rfl⟩ : ∃ c t, ds = c :: t := by
        cases ds with
        | nil => exact absurd rfl h1
        | cons c t => exact ⟨c, t, rfl⟩
      have hc : c.isDigit = true := by
        simp only [List.all_cons, Bool.and_eq_true] at h2
        exact h2.1
      simp only [List.nil_append, List.cons_append]
      exact optSign_digit hc
    · simp [optSign]
    · simp [optSign]
  simp only [parse_num, hopt, hsplit.1, hsplit.2, if_neg h1,
    if_neg (Nat.not_lt.mpr h3), hdot, Bool.false_eq_true, if_neg]
  rfl

theorem tag_ne_head (a : Char) (s' : List Char) {c : Char} {t : List Char}
    (hne : c ≠ a) : tag (a :: s') (c :: t) = .err (c :: t) := by
  have hf : (a == c) = false := beq_eq_false_iff_ne.mpr (Ne.symm hne)
  simp [tag, List.isPrefixOf, hf]

/-- The first two branches of `parse_value` fail cleanly on any input that
starts like a number, so the dispatcher returns what `parse_num` produced. -/
theorem parse_value_num {nv : Num} {rest : List Char} (fuel : ℕ) (c : Char)
    (t : List Char) (hc : c = '+' ∨ c = '-' ∨ c.isDigit = true)
    (hnum : parse_num (c :: t) = .ok nv rest) :
    parse_value (fuel + 1) (c :: t) = .ok (.Number nv) rest := by
  have hn : c ≠ 'n' ∧ c ≠ 't' ∧ c ≠ 'f' := by
    rcases hc with rfl | rfl | hd
    · exact ⟨by decide, by decide, by decide⟩
    · exact ⟨by decide, by decide, by decide⟩
    · obtain ⟨a, b, c', -, -, -⟩ := digit_ne_keyword hd
      exact ⟨a, b, c'⟩
  have hnull : parse_null (c :: t) = .err (c :: t) := tag_ne_head 'n' (cs "ull") hn.1
  have htrue : tag (cs "true") (c :: t) = .err (c :: t) := tag_ne_head 't' (cs "rue") hn.2.1
  have hfalse : tag (cs "false") (c :: t) = .err (c :: t) :=
    tag_ne_head 'f' (cs "alse") hn.2.2
  simp [parse_value, alt2, parse_bool, pmap, hnull, htrue, hfalse, hnum]

/-! ### Claim theorems: the numeric literal claims -/

/-- C1: the spec claims every decimal-point literal parses to the
double-precision value of the literal itself, integer and fractional digit
strings concatenated textually, so that `"1.05"` parses to `Float(1.05)`.
The code instead formats the already-parsed fractional integer (`frac = 5`),
losing its leading zero: `"1.05"` parses to `Float(1.5)` (decimal mantissa 15,
exponent -1), which is not within double-precision accuracy of `1.05`. -/
theorem C1_float_concat_bug :
    parse_json (cs "1.05") = .ok (.Number (.Float ⟨15, -1⟩)) ∧
    Dec.val ⟨15, -1⟩ = 3 / 2 ∧ Dec.val ⟨15, -1⟩ ≠ 21 / 20 := by
  refine ⟨rfl, ?_, ?_⟩
  · norm_num [Dec.val]
  · norm_num [Dec.val]

/-- C2 (counterexample): the claim says a literal with an exponent but no
decimal point parses to a scaled `Float`; on `"1e5"` the recognizer instead
stops before the `e`, yields `Int 1`, and the top-level parse returns
`Number (Int 1)`, not a `Float`. -/
theorem C2_counterexample :
    parse_num (cs "1e5") = .ok (.Int 1) (cs "e5") ∧
    parse_json (cs "1e5") = .ok (.Number (.Int 1)) :=
  ⟨rfl, rfl⟩

/-- C2 (amended): the exponent branch is reached only after a fractional
part; on a digit run followed directly by `e`, `parse_num` returns the
integer value and leaves the exponent marker unconsumed. -/
theorem C2_amended (ds rs : List Char) (h1 : ds ≠ [])
    (h2 : ds.all Char.isDigit = true) (h3 : natOfDigits ds ≤ i64max) :
    parse_num (ds ++ 'e' :: rs) = .ok (.Int (natOfDigits ds)) ('e' :: rs) := by
  have h := parse_num_int [] ds ('e' :: rs) false (Or.inl ⟨rfl, rfl⟩) h1 h2 h3
      (Or.inr ⟨'e', rs, rfl, by decide, by decide⟩)
  simpa using h

/-- C2 (witness): the amended theorem at the concrete literal `"27e3"`. -/
theorem C2_amended_witness :
    parse_num (cs "27e3") = .ok (.Int 27) ('e' :: cs "3") :=
  C2_amended (cs "27") (cs "3") (by decide) (by decide) (by decide)

/-- C3 (counterexample): the claim covers every 64-bit signed integer, but
the textual form of `i64::MIN = -2^63` fails to parse: the unsigned digit
run `9223372036854775808` overflows the `i64` conversion before the sign is
applied. -/
theorem C3_counterexample :
    parse_json (cs "-9223372036854775808") = .error ∧
    (-9223372036854775808 : ℤ) = -(2 : ℤ) ^ 63 :=
  ⟨rfl, by norm_num⟩

/-- C3 (amended): every optionally signed digit run whose magnitude is at
most `2^63 - 1 = i64::MAX` (so every `i64` except `i64::MIN`) parses to
`Number (Int n)` with the denoted value. -/
theorem C3_amended (pre ds : List Char) (neg : Bool) (hpre : SignPre pre neg)
    (h1 : ds ≠ []) (h2 : ds.all Char.isDigit = true)
    (h3 : (natOfDigits ds : ℤ) ≤ 2 ^ 63 - 1) :
    parse_json (pre ++ ds) =
      .ok (.Number (.Int
        (if neg then -(natOfDigits ds : ℤ) else (natOfDigits ds : ℤ)))) := by
  have h3' : natOfDigits ds ≤ i64max := by
    have h9 : ((9223372036854775807 : ℕ) : ℤ) = 2 ^ 63 - 1 := by norm_num
    rw [i64max, ← Nat.cast_le (α := ℤ), h9]
    exact h3
  have hnum : parse_num (pre ++ ds) =
      .ok (.Int (if neg then -(natOfDigits ds : ℤ) else (natOfDigits ds : ℤ))) [] := by
    have h := parse_num_int pre ds [] neg hpre h1 h2 h3' (Or.inl rfl)
    simpa using h
  obtain ⟨c, t, hct, hc⟩ :
      ∃ c t, pre ++ ds = c :: t ∧ (c = '+' ∨ c = '-' ∨ c.isDigit = true) := by
    rcases hpre with ⟨rfl, rfl⟩ | ⟨rfl, rfl⟩ | ⟨rfl, rfl⟩
    · cases ds with
      | nil => exact absurd rfl h1
      | cons c t =>
          have hc : c.isDigit = true := by
            simp only [List.all_cons, Bool.and_eq_true] at h2
            exact h2.1
          exact ⟨c, t, rfl, Or.inr (Or.inr hc)⟩
    · exact ⟨'+', ds, rfl, Or.inl rfl⟩
    · exact ⟨'-', ds, rfl, Or.inr (Or.inl rfl)⟩
  rw [hct] at hnum ⊢
  have hv := parse_value_num (t.length + 1) c t hc hnum
  simp [parse_json, hv]

/-- C3 (witness): the amended theorem at the concrete literal `"-123"`. -/
theorem C3_amended_witness :
    parse_json (cs "-123") = .ok (.Number (.Int (-123))) :=
  C3_amended ['-'] (cs "123") true (Or.inr (Or.inr ⟨rfl, rfl⟩)) (by decide)
    (by decide) (by norm_num [show natOfDigits (cs "123") = 123 from rfl])

/-! ### Claim theorems: failure behaviour of the recognizers -/

/-- C4 (counterexample): the claim says every recognizer leaves the input
unchanged when it fails, but `parse_num` on `"+x"` consumes the sign before
`digit1` fails, leaving the cursor at `"x"`. -/
theorem C4_counterexample :
    parse_num (cs "+x") = .err (cs "x") ∧ cs "x" ≠ cs "+x" :=
  ⟨rfl, by decide⟩

/-- C4 (amended): the literal-keyword recognizers (`parse_null`,
`parse_bool`) do fail without consuming input: each either fails with the
input unchanged or succeeds.  (The number, string, array and object
recognizers may advance the cursor before failing, as the counterexample
shows; the dispatcher's `alt` restores its checkpoint between branches.) -/
theorem C4_amended : ∀ inp : List Char,
    (parse_null inp = .err inp ∨ ∃ r, parse_null inp = .ok () r) ∧
    (parse_bool inp = .err inp ∨ ∃ b r, parse_bool inp = .ok b r) := by
  intro inp
  constructor
  · by_cases h1 : (cs "null").isPrefixOf inp
    · exact Or.inr ⟨inp.drop (cs "null").length, by simp [parse_null, tag, h1]⟩
    · exact Or.inl (by simp [parse_null, tag, h1])
  · by_cases h1 : (cs "true").isPrefixOf inp
    · exact Or.inr ⟨true, inp.drop (cs "true").length,
        by simp [parse_bool, alt2, tag, pmap, h1]⟩
    · by_cases h2 : (cs "false").isPrefixOf inp
      · exact Or.inr ⟨false, inp.drop (cs "false").length,
          by simp [parse_bool, alt2, tag, pmap, h1, h2]⟩
      · exact Or.inl (by simp [parse_bool, alt2, tag, pmap, h1, h2])

/-- C5: the empty object literal `"{}"` is rejected (an object requires at
least one pair), while the empty array literal `"[]"` parses to an empty
`Array`. -/
theorem C5_empty_object_vs_array :
    parse_json (cs "{}") = .error ∧ parse_json (cs "[]") = .ok (.Array []) :=
  ⟨rfl, rfl⟩

/-- C6: each of the five spec failure cases — empty input, empty object,
trailing comma, truncated keyword, unterminated string — yields an error
from the top-level parse (and, the model being total, no panic and no
partial tree). -/
theorem C6_failure_cases :
    parse_json (cs "") = .error ∧
    parse_json (cs "{}") = .error ∧
    parse_json (cs "[1, 2,]") = .error ∧
    parse_json (cs "tru") = .error ∧
    parse_json (cs "\"unterminated") = .error :=
  ⟨rfl, rfl, rfl, rfl, rfl⟩

/-- C9 (counterexample): inserting whitespace around a comma that lies
inside a string literal changes the parsed value: `"\",\""` parses to the
one-character string `","`, its padded variant parses to `" ,"`, and the two
values are structurally different. -/
theorem C9_counterexample :
    parse_json (cs "\",\"") = .ok (.String [',']) ∧
    parse_json (cs "\" ,\"") = .ok (.String [' ', ',']) ∧
    JsonValue.String [','] ≠ JsonValue.String [' ', ','] := by
  refine ⟨rfl, rfl, ?_⟩
  intro h
  injection h with h2
  exact absurd h2 (by decide)

/-- C10 (counterexample): the claim promises success whenever some proper
prefix of the input is a valid value, but `"1.x"` fails outright even though
its proper prefix `"1"` parses to `Int 1`: the number recognizer commits to
the decimal point and then fails. -/
theorem C10_counterexample :
    parse_json (cs "1") = .ok (.Number (.Int 1)) ∧
    parse_json (cs "1.x") = .error :=
  ⟨rfl, rfl⟩

/-- C10 (amended): the top-level parse never requires the whole input to be
consumed: whenever the value recognizer succeeds on a prefix, `parse_json`
returns its value and silently discards the unconsumed suffix. -/
theorem C10_amended (s : List Char) (v : JsonValue) (r : List Char)
    (h : parse_value (s.length + 1) s = .ok v r) : parse_json s = .ok v := by
  unfold parse_json
  rw [h]

/-- C10 (witness): the amended theorem on `"123abc"`, whose trailing
`"abc"` is ignored. -/
theorem C10_amended_witness : parse_json (cs "123abc") = .ok (.Number (.Int 123)) :=
  C10_amended (cs "123abc") (.Number (.Int 123)) (cs "abc") rfl

/-! ### No-panic lemmas: every reachable run avoids the `unwrap` (C7) -/

theorem pmap_ne_panic {α β : Type} (f : α → β) {r : PR α} (h : r ≠ .panicked) :
    pmap f r ≠ .panicked := by
  cases r with
  | ok v rest => simp [pmap]
  | err rest => simp [pmap]
  | panicked => exact absurd rfl h

theorem alt2_ne_panic {α : Type} {p q : List Char → PR α} {inp : List Char}
    (hp : p inp ≠ .panicked) (hq : q inp ≠ .panicked) :
    alt2 p q inp ≠ .panicked := by
  unfold alt2
  cases hpe : p inp with
  | ok v r => simp
  | panicked => exact absurd hpe hp
  | err r => exact hq

theorem tag_ne_panic (s inp : List Char) : tag s inp ≠ .panicked := by
  unfold tag
  split <;> simp

theorem parse_null_ne_panic (inp : List Char) : parse_null inp ≠ .panicked :=
  tag_ne_panic _ _

theorem parse_bool_ne_panic (inp : List Char) : parse_bool inp ≠ .panicked :=
  alt2_ne_panic (pmap_ne_panic _ (tag_ne_panic _ _)) (pmap_ne_panic _ (tag_ne_panic _ _))

theorem sep_with_space_ne_panic (c : Char) (inp : List Char) :
    sep_with_space c inp ≠ .panicked := by
  simp only [sep_with_space]
  split <;> simp

theorem parse_string_ne_panic (inp : List Char) : parse_string inp ≠ .panicked := by
  simp only [parse_string]
  split_ifs
  all_goals simp

theorem parseExpTail_ne_panic (sign : Bool) (v0 : Dec) (i5 : List Char) :
    parseExpTail sign v0 i5 ≠ .panicked := by
  simp only [parseExpTail]
  split_ifs <;> simp

/-- The `unwrap` inside `parse_num` never fires: the string it re-parses is
always of the shape `"<digits>.<digits>"`. -/
theorem parse_num_ne_panic (inp : List Char) : parse_num inp ≠ .panicked := by
  intro h
  simp only [parse_num] at h
  rw [decOfDotDigits_repr] at h
  split_ifs at h
  all_goals
    first
      | exact PR.noConfusion h
      | exact parseExpTail_ne_panic _ _ _ h

theorem sepLoop_ne_panic {α : Type} {p : List Char → PR α}
    {sep : List Char → PR Unit} (hp : ∀ i, p i ≠ .panicked)
    (hs : ∀ i, sep i ≠ .panicked) :
    ∀ fuel acc inp, sepLoop p sep fuel acc inp ≠ .panicked := by
  intro fuel
  induction fuel with
  | zero => intro acc inp; simp [sepLoop]
  | succ f ih =>
      intro acc inp
      simp only [sepLoop]
      cases hse : sep inp with
      | panicked => exact absurd hse (hs inp)
      | err r => simp
      | ok u i2 =>
          dsimp only
          cases hpe : p i2 with
          | panicked => exact absurd hpe (hp i2)
          | err r => simp
          | ok v i3 => dsimp only; exact ih _ _

theorem separated0_ne_panic {α : Type} {p : List Char → PR α}
    {sep : List Char → PR Unit} (hp : ∀ i, p i ≠ .panicked)
    (hs : ∀ i, sep i ≠ .panicked) (fuel : ℕ) (inp : List Char) :
    separated0 p sep fuel inp ≠ .panicked := by
  unfold separated0
  cases hpe : p inp with
  | panicked => exact absurd hpe (hp inp)
  | err r => simp
  | ok v i2 => dsimp only; exact sepLoop_ne_panic hp hs _ _ _

theorem separated1_ne_panic {α : Type} {p : List Char → PR α}
    {sep : List Char → PR Unit} (hp : ∀ i, p i ≠ .panicked)
    (hs : ∀ i, sep i ≠ .panicked) (fuel : ℕ) (inp : List Char) :
    separated1 p sep fuel inp ≠ .panicked := by
  unfold separated1
  cases hpe : p inp with
  | panicked => exact absurd hpe (hp inp)
  | err r => simp
  | ok v i2 => dsimp only; exact sepLoop_ne_panic hp hs _ _ _

theorem parse_array_ne_panic {pv : List Char → PR JsonValue}
    (hpv : ∀ i, pv i ≠ .panicked) (fuel : ℕ) (inp : List Char) :
    parse_array pv fuel inp ≠ .panicked := by
  unfold parse_array
  cases h1 : sep_with_space '[' inp with
  | panicked => exact absurd h1 (sep_with_space_ne_panic _ _)
  | err r => simp
  | ok u i1 =>
      dsimp only
      cases h2 : separated0 pv (sep_with_space ',') fuel i1 with
      | panicked => exact absurd h2 (separated0_ne_panic hpv (sep_with_space_ne_panic ',') _ _)
      | err r => simp
      | ok vs i2 =>
          dsimp only
          cases h3 : sep_with_space ']' i2 with
          | panicked => exact absurd h3 (sep_with_space_ne_panic _ _)
          | err r => simp
          | ok u2 i3 => simp

theorem parse_kv_ne_panic {pv : List Char → PR JsonValue}
    (hpv : ∀ i, pv i ≠ .panicked) (inp : List Char) :
    parse_kv pv inp ≠ .panicked := by
  unfold parse_kv
  cases h1 : parse_string inp with
  | panicked => exact absurd h1 (parse_string_ne_panic _)
  | err r => simp
  | ok k i1 =>
      dsimp only
      cases h2 : sep_with_space ':' i1 with
      | panicked => exact absurd h2 (sep_with_space_ne_panic _ _)
      | err r => simp
      | ok u i2 =>
          dsimp only
          cases h3 : pv i2 with
          | panicked => exact absurd h3 (hpv i2)
          | err r => simp
          | ok v i3 => simp

theorem parse_object_ne_panic {pv : List Char → PR JsonValue}
    (hpv : ∀ i, pv i ≠ .panicked) (fuel : ℕ) (inp : List Char) :
    parse_object pv fuel inp ≠ .panicked := by
  unfold parse_object
  cases h1 : sep_with_space '{' inp with
  | panicked => exact absurd h1 (sep_with_space_ne_panic _ _)
  | err r => simp
  | ok u i1 =>
      dsimp only
      cases h2 : separated1 (parse_kv pv) (sep_with_space ',') fuel i1 with
      | panicked =>
          exact absurd h2
            (separated1_ne_panic (parse_kv_ne_panic hpv) (sep_with_space_ne_panic ',') _ _)
      | err r => simp
      | ok ps i2 =>
          dsimp only
          cases h3 : sep_with_space '}' i2 with
          | panicked => exact absurd h3 (sep_with_space_ne_panic _ _)
          | err r => simp
          | ok u2 i3 => simp

theorem parse_value_ne_panic : ∀ (fuel : ℕ) (inp : List Char),
    parse_value fuel inp ≠ .panicked := by
  intro fuel
  induction fuel with
  | zero => intro inp; simp [parse_value]
  | succ f ih =>
      intro inp
      simp only [parse_value]
      exact alt2_ne_panic (pmap_ne_panic _ (parse_null_ne_panic inp))
        (alt2_ne_panic (pmap_ne_panic _ (parse_bool_ne_panic inp))
        (alt2_ne_panic (pmap_ne_panic _ (parse_num_ne_panic inp))
        (alt2_ne_panic (pmap_ne_panic _ (parse_string_ne_panic inp))
        (alt2_ne_panic (pmap_ne_panic _ (parse_array_ne_panic ih f inp))
                       (pmap_ne_panic _ (parse_object_ne_panic ih f inp))))))

/-- C7: on every input the top-level parse returns a `Result` — a value or a
structured error — and never panics; in particular the `unwrap` on the
concatenated `"<int>.<frac>"` string inside `parse_num` cannot fail
(`parse_num_ne_panic` above), and no other reachable state panics either. -/
theorem C7_no_panic : ∀ s : List Char, parse_json s ≠ .panicked := by
  intro s h
  unfold parse_json at h
  cases hv : parse_value (s.length + 1) s with
  | ok v r => rw [hv] at h; exact ParseOutcome.noConfusion h
  | err r => rw [hv] at h; exact ParseOutcome.noConfusion h
  | panicked => exact absurd hv (parse_value_ne_panic _ _)

/-! ### Whitespace-slack utilities for the render proofs -/

theorem ws_not_digit {c : Char} (h : isWs c = true) : c.isDigit = false := by
  simp only [isWs, Bool.or_eq_true, beq_iff_eq] at h
  rcases h with ((rfl | rfl) | rfl) | rfl <;> decide

theorem isWs_cases {c : Char} (h : isWs c = true) :
    c = ' ' ∨ c = '\t' ∨ c = '\n' ∨ c = '\r' := by
  simp only [isWs, Bool.or_eq_true, beq_iff_eq] at h
  tauto

theorem ws_prefix_split {w w1 x y : List Char} {c : Char}
    (hw : w.all isWs = true) (hc : isWs c = false)
    (h : w ++ x = w1 ++ c :: y) (hw1 : w1.all isWs = true) :
    ∃ w2, w1 = w ++ w2 ∧ w2.all isWs = true ∧ x = w2 ++ c :: y := by
  induction w generalizing w1 with
  | nil =>
      exact ⟨w1, rfl, hw1, h⟩
  | cons a w' ih =>
      simp only [List.all_cons, Bool.and_eq_true] at hw
      cases w1 with
      | nil =>
          simp only [List.nil_append, List.cons_append, List.cons.injEq] at h
          rw [h.1] at hw
          rw [hw.1] at hc
          exact absurd hc (by simp)
      | cons b w1' =>
          simp only [List.all_cons, Bool.and_eq_true] at hw1
          simp only [List.cons_append, List.cons.injEq] at h
          obtain ⟨w2, h1, h2, h3⟩ := ih hw.2 h.2 hw1.2
          exact ⟨w2, by simp [h.1, h1], h2, h3⟩

theorem dropWs_ws_append {w y : List Char} (hw : w.all isWs = true) :
    dropWs (w ++ y) = dropWs y := by
  induction w with
  | nil => rfl
  | cons a w' ih =>
      simp only [List.all_cons, Bool.and_eq_true] at hw
      have h2 := ih hw.2
      simp only [dropWs] at h2 ⊢
      simp [List.dropWhile_cons, hw.1, h2]

theorem dropWs_not_ws {c : Char} {y : List Char} (hc : isWs c = false) :
    dropWs (c :: y) = c :: y := by
  simp [dropWs, List.dropWhile_cons, hc]

theorem dropWs_decomp (y : List Char) :
    ∃ w, w.all isWs = true ∧ w ++ dropWs y = y := by
  refine ⟨y.takeWhile isWs, ?_, ?_⟩
  · exact List.all_takeWhile
  · exact List.takeWhile_append_dropWhile isWs y

theorem slack_exact {x y rest : List Char} {c : Char} (hy : y = c :: rest)
    (hc : isWs c = false) (h : WsSlack x y) : x = y := by
  obtain ⟨w, hw, hwx⟩ := h
  cases w with
  | nil => simpa using hwx
  | cons a w' =>
      simp only [List.all_cons, Bool.and_eq_true] at hw
      rw [hy] at hwx
      simp only [List.cons_append, List.cons.injEq] at hwx
      rw [hwx.1] at hw
      rw [hw.1] at hc
      exact absurd hc (by simp)

theorem tag_append (s r : List Char) : tag s (s ++ r) = .ok () r := by
  have h1 : s.isPrefixOf (s ++ r) = true := by
    rw [List.isPrefixOf_iff_prefix]
    exact List.prefix_append s r
  simp [tag, h1]

theorem sep_with_space_hit (c : Char) {x w y : List Char}
    (hw : w.all isWs = true) (hc : isWs c = false)
    (hx : WsSlack x (w ++ c :: y)) :
    sep_with_space c x = .ok () (dropWs y) := by
  obtain ⟨w0, hw0, hwx⟩ := hx
  obtain ⟨w2, -, hw2, h3⟩ := ws_prefix_split hw0 hc hwx hw
  have hdx : dropWs x = c :: y := by
    rw [h3, dropWs_ws_append hw2, dropWs_not_ws hc]
  simp [sep_with_space, hdx, headIs]

theorem sep_with_space_miss (c : Char) {x : List Char} {c' : Char} {y : List Char}
    (hdx : dropWs x = c' :: y) (hne : c' ≠ c) :
    sep_with_space c x = .err (c' :: y) := by
  have : (c' == c) = false := beq_eq_false_iff_ne.mpr hne
  simp [sep_with_space, hdx, headIs, this]

theorem sepLoop_stop {α : Type} (p : List Char → PR α) (lf : ℕ) (acc : List α)
    {x : List Char} {c' : Char} {y : List Char}
    (hdx : dropWs x = c' :: y) (hne : c' ≠ ',') :
    sepLoop p (sep_with_space ',') (lf + 1) acc x = .ok acc x := by
  have hs := sep_with_space_miss ',' hdx hne
  simp only [sepLoop, hs]

theorem parse_string_render (s rest : List Char)
    (hs : s.all (fun c => !(c == '"')) = true) :
    parse_string ('"' :: (s ++ '"' :: rest)) = .ok s rest := by
  have hsplit := takeWhile_all_append (fun c => !(c == '"')) s ('"' :: rest) hs
      (Or.inr ⟨'"', rest, rfl, by simp⟩)
  simp [parse_string, headIs, hsplit.1, hsplit.2]

theorem leaf_fail_of {c : Char} (t : List Char)
    (h1 : c ≠ 'n') (h2 : c ≠ 't') (h3 : c ≠ 'f') (h4 : c ≠ '+') (h5 : c ≠ '-')
    (h6 : c.isDigit = false) (h7 : c ≠ '"') :
    parse_null (c :: t) = .err (c :: t) ∧ parse_bool (c :: t) = .err (c :: t) ∧
    parse_num (c :: t) = .err (c :: t) ∧ parse_string (c :: t) = .err (c :: t) := by
  refine ⟨tag_ne_head 'n' (cs "ull") h1, ?_, ?_, ?_⟩
  · have ht : tag (cs "true") (c :: t) = .err (c :: t) := tag_ne_head 't' (cs "rue") h2
    have hf : tag (cs "false") (c :: t) = .err (c :: t) := tag_ne_head 'f' (cs "alse") h3
    simp [parse_bool, alt2, pmap, ht, hf]
  · have hopt : optSign (c :: t) = (false, c :: t) := by simp [optSign, h4, h5]
    have htw : (c :: t).takeWhile Char.isDigit = [] := by
      simp [List.takeWhile_cons, h6]
    simp [parse_num, hopt, htw]
  · have : (c == '"') = false := beq_eq_false_iff_ne.mpr h7
    simp [parse_string, headIs, this]

theorem ws_head_no_value {c : Char}
    (h : isWs c = true ∨ c = '[' ∨ c = '{' ∨ c = ']' ∨ c = '}' ∨ c = ',') :
    c ≠ 'n' ∧ c ≠ 't' ∧ c ≠ 'f' ∧ c ≠ '+' ∧ c ≠ '-' ∧ c.isDigit = false ∧
    c ≠ '"' := by
  rcases h with hws | rfl | rfl | rfl | rfl | rfl
  · rcases isWs_cases hws with rfl | rfl | rfl | rfl <;>
      exact ⟨by decide, by decide, by decide, by decide, by decide, by decide,
        by decide⟩
  all_goals
    exact ⟨by decide, by decide, by decide, by decide, by decide, by decide,
      by decide⟩

theorem digit_not_ws {c : Char} (h : c.isDigit = true) : isWs c = false := by
  cases hw : isWs c with
  | false => rfl
  | true => rw [ws_not_digit hw] at h; exact absurd h (by simp)

theorem optSign_pre (pre ds tl : List Char) (neg : Bool) (hpre : SignPre pre neg)
    (h1 : ds ≠ []) (h2 : ds.all Char.isDigit = true) :
    optSign (pre ++ (ds ++ tl)) = (neg, ds ++ tl) := by
  rcases hpre with ⟨rfl, rfl⟩ | ⟨rfl, rfl⟩ | ⟨rfl, rfl⟩
  · cases ds with
    | nil => exact absurd rfl h1
    | cons c t =>
        have hc : c.isDigit = true := by
          simp only [List.all_cons, Bool.and_eq_true] at h2
          exact h2.1
        simpa using optSign_digit (t := t ++ tl) hc
  · simp [optSign]
  · simp [optSign]

/-- The fractional path of `parse_num` on a rendered literal
`<sign><ds>.<fs>`: the value is the reformatted decimal of `semNum`. -/
theorem parse_num_frac (pre ds fs rest : List Char) (neg : Bool)
    (hpre : SignPre pre neg)
    (hds : ds ≠ []) (hds2 : ds.all Char.isDigit = true)
    (hds3 : natOfDigits ds ≤ i64max)
    (hfs : fs ≠ []) (hfs2 : fs.all Char.isDigit = true)
    (hfs3 : natOfDigits fs ≤ i64max)
    (hrest : rest = [] ∨ ∃ c t, rest = c :: t ∧ c.isDigit = false ∧
      c ≠ '.' ∧ c ≠ 'e' ∧ c ≠ 'E') :
    parse_num (pre ++ (ds ++ '.' :: (fs ++ rest))) =
      .ok (semNum neg ds (.tfrac fs)) rest := by
  have hrest' : rest = [] ∨ ∃ c t, rest = c :: t ∧ c.isDigit = false := by
    rcases hrest with rfl | ⟨c, t, rfl, hc, -⟩
    · exact Or.inl rfl
    · exact Or.inr ⟨c, t, rfl, hc⟩
  have hopt := optSign_pre pre ds ('.' :: (fs ++ rest)) neg hpre hds hds2
  have hs1 := takeWhile_all_append Char.isDigit ds ('.' :: (fs ++ rest)) hds2
      (Or.inr ⟨'.', fs ++ rest, rfl, by decide⟩)
  have hs2 := takeWhile_all_append Char.isDigit fs rest hfs2 hrest'
  have hee : (headIs 'e' rest || headIs 'E' rest) = false := by
    rcases hrest with rfl | ⟨c, t, rfl, -, -, hce, hcE⟩
    · rfl
    · simp [headIs, hce, hcE]
  have hdot : headIs '.' ('.' :: (fs ++ rest)) = true := rfl
  simp [parse_num, hopt, hs1.1, hs1.2, hs2.1, hs2.2, decOfDotDigits_repr, hds,
    hfs, Nat.not_lt.mpr hds3, Nat.not_lt.mpr hfs3, hdot, hee, List.tail_cons,
    semNum]

/-- The exponent path of `parse_num` on a rendered literal
`<sign><ds>.<fs>e<esign><es>`. -/
theorem parse_num_exp (pre ds fs epre es rest : List Char) (neg eneg : Bool)
    (hpre : SignPre pre neg) (hepre : SignPre epre eneg)
    (hds : ds ≠ []) (hds2 : ds.all Char.isDigit = true)
    (hds3 : natOfDigits ds ≤ i64max)
    (hfs : fs ≠ []) (hfs2 : fs.all Char.isDigit = true)
    (hfs3 : natOfDigits fs ≤ i64max)
    (hes : es ≠ []) (hes2 : es.all Char.isDigit = true)
    (hes3 : natOfDigits es ≤ i64max)
    (hrest : rest = [] ∨ ∃ c t, rest = c :: t ∧ c.isDigit = false) :
    parse_num (pre ++ (ds ++ '.' :: (fs ++ 'e' :: (epre ++ (es ++ rest))))) =
      .ok (semNum neg ds (.texp fs eneg es)) rest := by
  have hopt := optSign_pre pre ds ('.' :: (fs ++ 'e' :: (epre ++ (es ++ rest))))
      neg hpre hds hds2
  have hs1 := takeWhile_all_append Char.isDigit ds
      ('.' :: (fs ++ 'e' :: (epre ++ (es ++ rest)))) hds2
      (Or.inr ⟨'.', _, rfl, by decide⟩)
  have hs2 := takeWhile_all_append Char.isDigit fs ('e' :: (epre ++ (es ++ rest)))
      hfs2 (Or.inr ⟨'e', _, rfl, by decide⟩)
  have hopt2 := optSign_pre epre es rest eneg hepre hes hes2
  have hs3 := takeWhile_all_append Char.isDigit es rest hes2 hrest
  have hdot : headIs '.' ('.' :: (fs ++ 'e' :: (epre ++ (es ++ rest)))) = true := rfl
  have he : headIs 'e' ('e' :: (epre ++ (es ++ rest))) = true := rfl
  simp [parse_num, hopt, hs1.1, hs1.2, hs2.1, hs2.2, decOfDotDigits_repr, hds,
    hfs, hes, Nat.not_lt.mpr hds3, Nat.not_lt.mpr hfs3, Nat.not_lt.mpr hes3,
    hdot, he, List.tail_cons, parseExpTail, hopt2, hs3.1, hs3.2, semNum]

/-! ### Dispatch lemmas: how `parse_value` reaches each branch -/

theorem leaf3_fail_of {c : Char} (t : List Char)
    (h1 : c ≠ 'n') (h2 : c ≠ 't') (h3 : c ≠ 'f') (h4 : c ≠ '+') (h5 : c ≠ '-')
    (h6 : c.isDigit = false) :
    parse_null (c :: t) = .err (c :: t) ∧ parse_bool (c :: t) = .err (c :: t) ∧
    parse_num (c :: t) = .err (c :: t) := by
  refine ⟨tag_ne_head 'n' (cs "ull") h1, ?_, ?_⟩
  · have ht : tag (cs "true") (c :: t) = .err (c :: t) := tag_ne_head 't' (cs "rue") h2
    have hf : tag (cs "false") (c :: t) = .err (c :: t) := tag_ne_head 'f' (cs "alse") h3
    simp [parse_bool, alt2, pmap, ht, hf]
  · have hopt : optSign (c :: t) = (false, c :: t) := by simp [optSign, h4, h5]
    have htw : (c :: t).takeWhile Char.isDigit = [] := by
      simp [List.takeWhile_cons, h6]
    simp [parse_num, hopt, htw]

theorem WsSlack_refl (x : List Char) : WsSlack x x := ⟨[], rfl, rfl⟩

theorem WsSlack_dropWs {w : List Char} (y : List Char) (hw : w.all isWs = true) :
    WsSlack (dropWs (w ++ y)) y := by
  rw [dropWs_ws_append hw]
  obtain ⟨w0, h1, h2⟩ := dropWs_decomp y
  exact ⟨w0, h1, h2⟩

theorem parse_value_null (m : ℕ) (rest : List Char) :
    parse_value (m + 1) (cs "null" ++ rest) = .ok .Null rest := by
  have h := tag_append (cs "null") rest
  simp [parse_value, alt2, pmap, parse_null, h]

theorem parse_value_bool (m : ℕ) (b : Bool) (rest : List Char) :
    parse_value (m + 1) (renderT (.jbool b) ++ rest) = .ok (.Bool b) rest := by
  cases b with
  | true =>
      have hn : parse_null (cs "true" ++ rest) = .err (cs "true" ++ rest) :=
        tag_ne_head 'n' (cs "ull") (by decide)
      have ht : tag (cs "true") (cs "true" ++ rest) = .ok () rest :=
        tag_append (cs "true") rest
      simp [renderT, parse_value, alt2, pmap, parse_bool, hn, ht]
  | false =>
      have hn : parse_null (cs "false" ++ rest) = .err (cs "false" ++ rest) :=
        tag_ne_head 'n' (cs "ull") (by decide)
      have ht : tag (cs "true") (cs "false" ++ rest) = .err (cs "false" ++ rest) :=
        tag_ne_head 't' (cs "rue") (by decide)
      have hf : tag (cs "false") (cs "false" ++ rest) = .ok () rest :=
        tag_append (cs "false") rest
      simp [renderT, parse_value, alt2, pmap, parse_bool, hn, ht, hf]

theorem parse_value_str (m : ℕ) (s rest : List Char)
    (hs : s.all (fun c => !(c == '"')) = true) :
    parse_value (m + 1) ('"' :: (s ++ '"' :: rest)) = .ok (.String s) rest := by
  have h3 := leaf3_fail_of (c := '"') (s ++ '"' :: rest) (by decide) (by decide)
      (by decide) (by decide) (by decide) (by decide)
  have hstr := parse_string_render s rest hs
  simp [parse_value, alt2, pmap, h3.1, h3.2.1, h3.2.2, hstr]

theorem parse_value_arr (m : ℕ) {x : List Char} {c : Char} {t : List Char}
    {vs : List JsonValue} {r : List Char}
    (hx : x = c :: t) (hc : isWs c = true ∨ c = '[')
    (harr : parse_array (parse_value m) m x = .ok vs r) :
    parse_value (m + 1) x = .ok (.Array vs) r := by
  subst hx
  obtain ⟨h1, h2, h3, h4, h5, h6, h7⟩ :=
    ws_head_no_value (c := c) (by tauto)
  obtain ⟨hnull, hbool, hnum, hstr⟩ := leaf_fail_of t h1 h2 h3 h4 h5 h6 h7
  simp [parse_value, alt2, pmap, hnull, hbool, hnum, hstr, harr]

theorem parse_value_obj (m : ℕ) {x : List Char} {c : Char} {t y : List Char}
    {ps : List (List Char × JsonValue)} {r : List Char}
    (hx : x = c :: t) (hc : isWs c = true ∨ c = '{') (hdx : dropWs x = '{' :: y)
    (hobj : parse_object (parse_value m) m x = .ok ps r) :
    parse_value (m + 1) x = .ok (.Object ps) r := by
  have hmiss := sep_with_space_miss '[' hdx (by decide)
  have harr : parse_array (parse_value m) m x = .err ('{' :: y) := by
    simp [parse_array, hmiss]
  subst hx
  obtain ⟨h1, h2, h3, h4, h5, h6, h7⟩ :=
    ws_head_no_value (c := c) (by tauto)
  obtain ⟨hnull, hbool, hnum, hstr⟩ := leaf_fail_of t h1 h2 h3 h4 h5 h6 h7
  simp [parse_value, alt2, pmap, hnull, hbool, hnum, hstr, harr, hobj]

/-- At a position whose first significant character closes a structure or
separates elements, the dispatcher fails (every branch misses). -/
theorem parse_value_fail_close (fuel : ℕ) {x : List Char} {c : Char}
    {y : List Char} (hdx : dropWs x = c :: y)
    (hc : c = ']' ∨ c = '}' ∨ c = ',') :
    ∃ r, parse_value fuel x = .err r := by
  cases fuel with
  | zero => exact ⟨x, rfl⟩
  | succ m =>
      obtain ⟨c0, t0, hx0⟩ : ∃ c0 t0, x = c0 :: t0 := by
        cases x with
        | nil => simp [dropWs] at hdx
        | cons c0 t0 => exact ⟨c0, t0, rfl⟩
      have hc0 : isWs c0 = true ∨ c0 = '[' ∨ c0 = '{' ∨ c0 = ']' ∨ c0 = '}' ∨
          c0 = ',' := by
        cases hw : isWs c0 with
        | true => exact Or.inl rfl
        | false =>
            have hx : dropWs x = x := by rw [hx0]; exact dropWs_not_ws hw
            rw [hx, hx0] at hdx
            have : c0 = c := by
              injection hdx with hh
            subst this
            tauto
      obtain ⟨h1, h2, h3, h4, h5, h6, h7⟩ := ws_head_no_value hc0
      subst hx0
      obtain ⟨hnull, hbool, hnum, hstr⟩ := leaf_fail_of t0 h1 h2 h3 h4 h5 h6 h7
      have ha := sep_with_space_miss '[' hdx
        (by rcases hc with rfl | rfl | rfl <;> decide)
      have ho := sep_with_space_miss '{' hdx
        (by rcases hc with rfl | rfl | rfl <;> decide)
      have harr : parse_array (parse_value m) m (c0 :: t0) = .err (c :: y) := by
        simp [parse_array, ha]
      have hobj : parse_object (parse_value m) m (c0 :: t0) = .err (c :: y) := by
        simp [parse_object, ho]
      exact ⟨c :: y, by
        simp [parse_value, alt2, pmap, hnull, hbool, hnum, hstr, harr, hobj]⟩

/-! ### Support lemmas for the master render proof -/

theorem wfDigits_spec {ds : List Char} (h : wfDigits ds = true) :
    ds ≠ [] ∧ ds.all Char.isDigit = true ∧ natOfDigits ds ≤ i64max := by
  simp only [wfDigits, Bool.and_eq_true, Bool.not_eq_true',
    decide_eq_true_eq] at h
  refine ⟨?_, h.1.2, h.2⟩
  intro hnil
  rw [hnil] at h
  simp at h

theorem RestOk_ws_cons (w : List Char) (c : Char) (y : List Char)
    (hw : w.all isWs = true)
    (hc : isWs c = true ∨ c = ',' ∨ c = ']' ∨ c = '}') :
    RestOk (w ++ c :: y) := by
  cases w with
  | nil => exact Or.inr ⟨c, y, rfl, hc⟩
  | cons a w' =>
      simp only [List.all_cons, Bool.and_eq_true] at hw
      exact Or.inr ⟨a, w' ++ c :: y, rfl, Or.inl hw.1⟩

theorem CloseOk_RestOk {rest : List Char} (h : CloseOk rest) : RestOk rest := by
  obtain ⟨w, c, t, rfl, hw, hc⟩ := h
  exact RestOk_ws_cons w c t hw (by tauto)

theorem renderTail_RestOk (ts : JTail) {rest : List Char}
    (hwf : wfTail ts = true) (hc : CloseOk rest) :
    RestOk (renderTail ts ++ rest) := by
  cases ts with
  | tnil => simpa [renderTail] using CloseOk_RestOk hc
  | tcons w1 w2 t ts' =>
      simp only [wfTail, Bool.and_eq_true] at hwf
      have h := RestOk_ws_cons w1 ',' (w2 ++ (renderT t ++ renderTail ts') ++ rest)
        hwf.1.1.1 (Or.inr (Or.inl rfl))
      simpa [renderTail, List.append_assoc] using h

theorem dropWs_slack_close {x rest : List Char} (hs : WsSlack x rest)
    (hc : CloseOk rest) :
    ∃ c y, dropWs x = c :: y ∧ (c = ']' ∨ c = '}') := by
  obtain ⟨w0, hw0, heq⟩ := hs
  obtain ⟨w, c, t, hr, hw, hcc⟩ := hc
  rw [hr] at heq
  have hcw : isWs c = false := by rcases hcc with rfl | rfl <;> decide
  obtain ⟨w2, -, hw2, hx⟩ := ws_prefix_split hw0 hcw heq hw
  refine ⟨c, t, ?_, hcc⟩
  rw [hx, dropWs_ws_append hw2, dropWs_not_ws hcw]

theorem renderP_cons (ps : JPairs) : ∃ X, renderP ps = '"' :: X := by
  cases ps with
  | pone k w1 w2 v => exact ⟨_, rfl⟩
  | pcons k w1 w2 v w3 w4 ps' => exact ⟨_, rfl⟩

theorem renderNum_cons (neg : Bool) (ds : List Char) (nt : NumTail)
    (hds : ds ≠ []) (hds2 : ds.all Char.isDigit = true) :
    ∃ c t, renderNum neg ds nt = c :: t ∧ (c = '-' ∨ c.isDigit = true) := by
  cases neg with
  | true =>
      cases nt with
      | tint => exact ⟨'-', ds, rfl, Or.inl rfl⟩
      | tfrac fs => exact ⟨'-', ds ++ '.' :: fs, by simp [renderNum], Or.inl rfl⟩
      | texp fs eneg es =>
          exact ⟨'-', ds ++ '.' :: fs ++ 'e' :: ((if eneg then ['-'] else []) ++ es),
            by simp [renderNum], Or.inl rfl⟩
  | false =>
      obtain ⟨c, t, rfl⟩ : ∃ c t, ds = c :: t := by
        cases ds with
        | nil => exact absurd rfl hds
        | cons c t => exact ⟨c, t, rfl⟩
      have hc : c.isDigit = true := by
        simp only [List.all_cons, Bool.and_eq_true] at hds2
        exact hds2.1
      cases nt with
      | tint => exact ⟨c, t, by simp [renderNum], Or.inr hc⟩
      | tfrac fs => exact ⟨c, t ++ '.' :: fs, by simp [renderNum], Or.inr hc⟩
      | texp fs eneg es =>
          exact ⟨c, t ++ '.' :: fs ++ 'e' :: ((if eneg then ['-'] else []) ++ es),
            by simp [renderNum], Or.inr hc⟩

theorem RestOk_digitStop {rest : List Char} (h : RestOk rest) :
    rest = [] ∨ ∃ c t, rest = c :: t ∧ c.isDigit = false := by
  rcases h with rfl | ⟨c, t, rfl, hc⟩
  · exact Or.inl rfl
  · refine Or.inr ⟨c, t, rfl, ?_⟩
    rcases hc with hws | rfl | rfl | rfl
    · exact ws_not_digit hws
    all_goals decide

theorem RestOk_fracStop {rest : List Char} (h : RestOk rest) :
    rest = [] ∨ ∃ c t, rest = c :: t ∧ c.isDigit = false ∧
      c ≠ '.' ∧ c ≠ 'e' ∧ c ≠ 'E' := by
  rcases h with rfl | ⟨c, t, rfl, hc⟩
  · exact Or.inl rfl
  · refine Or.inr ⟨c, t, rfl, ?_, ?_, ?_, ?_⟩
    · rcases hc with hws | rfl | rfl | rfl
      · exact ws_not_digit hws
      all_goals decide
    all_goals
      rcases hc with hws | rfl | rfl | rfl
      · rcases isWs_cases hws with rfl | rfl | rfl | rfl <;> decide
      all_goals decide

theorem RestOk_intStop {rest : List Char} (h : RestOk rest) : IntStop rest := by
  rcases RestOk_fracStop h with rfl | ⟨c, t, rfl, h1, h2, -, -⟩
  · exact Or.inl rfl
  · exact Or.inr ⟨c, t, rfl, h1, h2⟩

/-- One key-value pair of a rendered object parses through `parse_kv`,
assuming the value's own parse statement. -/
theorem parse_kv_render {v : JTree} (k w1 w2 rest : List Char) (fuel : ℕ)
    (hPTv : PT v) (hwfv : wfT v = true)
    (hk : k.all (fun c => !(c == '"')) = true)
    (hw1 : wsOk w1 = true) (hw2 : wsOk w2 = true) (hrest : RestOk rest)
    (hlen : (renderT v ++ rest).length < fuel) :
    ∃ w' r', rest = w' ++ r' ∧ w'.all isWs = true ∧
      parse_kv (parse_value fuel)
        ('"' :: (k ++ '"' :: (w1 ++ ':' :: (w2 ++ renderT v))) ++ rest) =
        .ok (k, semT v) r' := by
  have hshape : '"' :: (k ++ '"' :: (w1 ++ ':' :: (w2 ++ renderT v))) ++ rest =
      '"' :: (k ++ '"' :: (w1 ++ ':' :: (w2 ++ (renderT v ++ rest)))) := by
    simp [List.append_assoc]
  have hstr := parse_string_render k (w1 ++ ':' :: (w2 ++ (renderT v ++ rest))) hk
  have hcolon := sep_with_space_hit ':'
      (w := w1) (y := w2 ++ (renderT v ++ rest)) hw1 (by decide)
      (WsSlack_refl _)
  obtain ⟨w', r', heq, hw', hok⟩ := hPTv (dropWs (w2 ++ (renderT v ++ rest)))
      rest fuel hwfv hrest (WsSlack_dropWs _ hw2) hlen
  refine ⟨w', r', heq, hw', ?_⟩
  rw [hshape]
  simp [parse_kv, hstr, hcolon, hok]

/-! ### The master render-parse theorem, by strong induction on tree size -/

set_option maxHeartbeats 1600000 in
theorem render_parse_main : ∀ n : ℕ,
    (∀ t, szT t ≤ n → PT t) ∧ (∀ es, szE es ≤ n → PE es) ∧
    (∀ ts, szTail ts ≤ n → PTail ts) ∧ (∀ ps, szP ps ≤ n → PP ps) ∧
    (∀ ps, szP ps ≤ n → PPL ps) := by
  intro n
  induction n using Nat.strongRecOn with
  | ind n IH =>
  refine ⟨?_, ?_, ?_, ?_, ?_⟩
  · -- PT
    intro t hsz
    cases t with
    | jnull =>
        intro x rest fuel hwf hrest hslack hlen
        have hx : x = renderT .jnull ++ rest :=
          slack_exact
            (show renderT .jnull ++ rest = 'n' :: (cs "ull" ++ rest) from rfl)
            (by decide) hslack
        cases fuel with
        | zero => exact absurd hlen (Nat.not_lt_zero _)
        | succ m =>
            exact ⟨[], rest, rfl, rfl, by rw [hx]; exact parse_value_null m rest⟩
    | jbool b =>
        intro x rest fuel hwf hrest hslack hlen
        have hx : x = renderT (.jbool b) ++ rest := by
          cases b with
          | true =>
              exact slack_exact
                (show renderT (.jbool true) ++ rest = 't' :: (cs "rue" ++ rest)
                  from rfl) (by decide) hslack
          | false =>
              exact slack_exact
                (show renderT (.jbool false) ++ rest = 'f' :: (cs "alse" ++ rest)
                  from rfl) (by decide) hslack
        cases fuel with
        | zero => exact absurd hlen (Nat.not_lt_zero _)
        | succ m =>
            exact ⟨[], rest, rfl, rfl, by rw [hx]; exact parse_value_bool m b rest⟩
    | jnum neg ds nt =>
        intro x rest fuel hwf hrest hslack hlen
        simp only [wfT, Bool.and_eq_true] at hwf
        obtain ⟨hds1, hds2, hds3⟩ := wfDigits_spec hwf.1
        obtain ⟨c, ct, hrn, hcd⟩ := renderNum_cons neg ds nt hds1 hds2
        have hcw : isWs c = false := by
          rcases hcd with rfl | hd
          · decide
          · exact digit_not_ws hd
        have hrt : renderT (.jnum neg ds nt) = renderNum neg ds nt := rfl
        have hy2 : renderT (.jnum neg ds nt) ++ rest = c :: (ct ++ rest) := by
          rw [hrt, hrn]
          rfl
        have hx : x = renderT (.jnum neg ds nt) ++ rest :=
          slack_exact hy2 hcw hslack
        have hsp : SignPre (if neg then ['-'] else []) neg := by
          cases neg
          · exact Or.inl ⟨rfl, rfl⟩
          · exact Or.inr (Or.inr ⟨rfl, rfl⟩)
        have hnum : parse_num (renderNum neg ds nt ++ rest) =
            .ok (semNum neg ds nt) rest := by
          cases nt with
          | tint =>
              have h := parse_num_int (if neg then ['-'] else []) ds rest neg hsp
                  hds1 hds2 hds3 (RestOk_intStop hrest)
              simpa [renderNum, semNum, List.append_assoc] using h
          | tfrac fs =>
              have hfs := wfDigits_spec (show wfDigits fs = true from hwf.2)
              have h := parse_num_frac (if neg then ['-'] else []) ds fs rest neg
                  hsp hds1 hds2 hds3 hfs.1 hfs.2.1 hfs.2.2
                  (RestOk_fracStop hrest)
              simpa [renderNum, List.append_assoc] using h
          | texp fs eneg es =>
              have hnt := hwf.2
              simp only [wfNT, Bool.and_eq_true] at hnt
              have hfs := wfDigits_spec hnt.1
              have hes := wfDigits_spec hnt.2
              have hesp : SignPre (if eneg then ['-'] else []) eneg := by
                cases eneg
                · exact Or.inl ⟨rfl, rfl⟩
                · exact Or.inr (Or.inr ⟨rfl, rfl⟩)
              have h := parse_num_exp (if neg then ['-'] else []) ds fs
                  (if eneg then ['-'] else []) es rest neg eneg hsp hesp
                  hds1 hds2 hds3 hfs.1 hfs.2.1 hfs.2.2 hes.1 hes.2.1 hes.2.2
                  (RestOk_digitStop hrest)
              simpa [renderNum, List.append_assoc] using h
        cases fuel with
        | zero => exact absurd hlen (Nat.not_lt_zero _)
        | succ m =>
            have hx2 : x = c :: (ct ++ rest) := by
              rw [hx, hrt, hrn]
              rfl
            have hc' : c = '+' ∨ c = '-' ∨ c.isDigit = true := by tauto
            have hnumx : parse_num (c :: (ct ++ rest)) =
                .ok (semNum neg ds nt) rest := by
              rw [← hx2, hx, hrt]
              exact hnum
            have hv := parse_value_num m c (ct ++ rest) hc' hnumx
            exact ⟨[], rest, rfl, rfl, by rw [hx2]; exact hv⟩
    | jstr s =>
        intro x rest fuel hwf hrest hslack hlen
        simp only [wfT] at hwf
        have hx : x = renderT (.jstr s) ++ rest :=
          slack_exact
            (show renderT (.jstr s) ++ rest = '"' :: ((s ++ ['"']) ++ rest)
              from rfl) (by decide) hslack
        cases fuel with
        | zero => exact absurd hlen (Nat.not_lt_zero _)
        | succ m =>
            have hshape : renderT (.jstr s) ++ rest = '"' :: (s ++ '"' :: rest) := by
              simp [renderT, List.append_assoc]
            exact ⟨[], rest, rfl, rfl,
              by rw [hx, hshape]; exact parse_value_str m s rest hwf⟩
    | jarr w1 w2 es w3 w4 =>
        intro x rest fuel hwf hrest hslack hlen
        simp only [wfT, Bool.and_eq_true] at hwf
        obtain ⟨⟨⟨⟨hw1, hw2⟩, hw3⟩, hw4⟩, hes⟩ := hwf
        simp only [szT] at hsz
        cases fuel with
        | zero => exact absurd hlen (Nat.not_lt_zero _)
        | succ m =>
        have hy : renderT (.jarr w1 w2 es w3 w4) ++ rest =
            w1 ++ '[' :: (w2 ++ (renderE es ++ (w3 ++ ']' :: (w4 ++ rest)))) := by
          simp [renderT, List.append_assoc]
        rw [hy] at hslack hlen
        obtain ⟨w0, hw0, heq0⟩ := hslack
        obtain ⟨wx, hwxeq, hwxs, hxeq⟩ := ws_prefix_split hw0 (by decide) heq0 hw1
        have hsep1 := sep_with_space_hit '[' hw1 (by decide) ⟨w0, hw0, heq0⟩
        have hslack2 : WsSlack
            (dropWs (w2 ++ (renderE es ++ (w3 ++ ']' :: (w4 ++ rest)))))
            (renderE es ++ (w3 ++ ']' :: (w4 ++ rest))) := WsSlack_dropWs _ hw2
        have hclose : CloseOk (w3 ++ ']' :: (w4 ++ rest)) :=
          ⟨w3, ']', w4 ++ rest, rfl, hw3, Or.inl rfl⟩
        have hPEes : PE es := (IH (szE es) (by omega)).2.1 es le_rfl
        have hlen2 : (renderE es ++ (w3 ++ ']' :: (w4 ++ rest))).length < m := by
          simp only [List.length_append, List.length_cons] at hlen ⊢
          omega
        obtain ⟨wm, r2, hr2eq, hwm, hsep⟩ :=
          hPEes _ _ m m hes hclose hslack2 hlen2 hlen2
        have hsep2 := sep_with_space_hit ']' hw3 (by decide) ⟨wm, hwm, hr2eq.symm⟩
        have harr : parse_array (parse_value m) m x =
            .ok (semE es) (dropWs (w4 ++ rest)) := by
          simp only [parse_array, hsep1, hsep, hsep2]
        obtain ⟨wr, hwr, hwreq⟩ := dropWs_decomp rest
        have hfinal : dropWs (w4 ++ rest) = dropWs rest := dropWs_ws_append hw4
        have hv : parse_value (m + 1) x = .ok (.Array (semE es)) (dropWs (w4 ++ rest)) := by
          cases wx with
          | nil => exact parse_value_arr m (by simpa using hxeq) (Or.inr rfl) harr
          | cons a wx' =>
              have haw : isWs a = true := by
                simp only [List.all_cons, Bool.and_eq_true] at hwxs
                exact hwxs.1
              exact parse_value_arr m (by simpa using hxeq) (Or.inl haw) harr
        refine ⟨wr, dropWs rest, hwreq.symm, hwr, ?_⟩
        rw [hv, hfinal]
        simp [semT]
    | jobj w1 w2 ps w3 w4 =>
        intro x rest fuel hwf hrest hslack hlen
        simp only [wfT, Bool.and_eq_true] at hwf
        obtain ⟨⟨⟨⟨hw1, hw2⟩, hw3⟩, hw4⟩, hps⟩ := hwf
        simp only [szT] at hsz
        cases fuel with
        | zero => exact absurd hlen (Nat.not_lt_zero _)
        | succ m =>
        have hy : renderT (.jobj w1 w2 ps w3 w4) ++ rest =
            w1 ++ '{' :: (w2 ++ (renderP ps ++ (w3 ++ '}' :: (w4 ++ rest)))) := by
          simp [renderT, List.append_assoc]
        rw [hy] at hslack hlen
        obtain ⟨w0, hw0, heq0⟩ := hslack
        obtain ⟨wx, hwxeq, hwxs, hxeq⟩ := ws_prefix_split hw0 (by decide) heq0 hw1
        have hsep1 := sep_with_space_hit '{' hw1 (by decide) ⟨w0, hw0, heq0⟩
        obtain ⟨X, hX⟩ := renderP_cons ps
        have hi1 : dropWs (w2 ++ (renderP ps ++ (w3 ++ '}' :: (w4 ++ rest)))) =
            renderP ps ++ (w3 ++ '}' :: (w4 ++ rest)) := by
          rw [dropWs_ws_append hw2, hX, List.cons_append,
            dropWs_not_ws (by decide)]
        have hclose : CloseOk (w3 ++ '}' :: (w4 ++ rest)) :=
          ⟨w3, '}', w4 ++ rest, rfl, hw3, Or.inr rfl⟩
        have hPPps : PP ps := (IH (szP ps) (by omega)).2.2.2.1 ps le_rfl
        have hlen2 : (renderP ps ++ (w3 ++ '}' :: (w4 ++ rest))).length < m := by
          simp only [List.length_append, List.length_cons] at hlen ⊢
          omega
        obtain ⟨wm, r2, hr2eq, hwm, hsep⟩ := hPPps _ m m hps hclose hlen2 hlen2
        have hsep2 := sep_with_space_hit '}' hw3 (by decide) ⟨wm, hwm, hr2eq.symm⟩
        have hobj : parse_object (parse_value m) m x =
            .ok (buildMap (semP ps)) (dropWs (w4 ++ rest)) := by
          simp only [parse_object, hsep1, hi1, hsep, hsep2]
        obtain ⟨wr, hwr, hwreq⟩ := dropWs_decomp rest
        have hfinal : dropWs (w4 ++ rest) = dropWs rest := dropWs_ws_append hw4
        have hdx : dropWs x = '{' :: (w2 ++ (renderP ps ++ (w3 ++ '}' :: (w4 ++ rest)))) := by
          rw [hxeq, dropWs_ws_append hwxs, dropWs_not_ws (by decide)]
        have hv : parse_value (m + 1) x =
            .ok (.Object (buildMap (semP ps))) (dropWs (w4 ++ rest)) := by
          cases wx with
          | nil => exact parse_value_obj m (by simpa using hxeq) (Or.inr rfl) hdx hobj
          | cons a wx' =>
              have haw : isWs a = true := by
                simp only [List.all_cons, Bool.and_eq_true] at hwxs
                exact hwxs.1
              exact parse_value_obj m (by simpa using hxeq) (Or.inl haw) hdx hobj
        refine ⟨wr, dropWs rest, hwreq.symm, hwr, ?_⟩
        rw [hv, hfinal]
        simp [semT]
  · -- PE
    intro es hsz
    cases es with
    | enil =>
        intro x rest fuel lf hwf hclose hslack hlen hlf
        have hslack' : WsSlack x rest := by simpa [renderE] using hslack
        obtain ⟨c, y, hdx, hcy⟩ := dropWs_slack_close hslack' hclose
        obtain ⟨r0, herr⟩ := parse_value_fail_close fuel hdx (by tauto)
        obtain ⟨w0, hw0, heq0⟩ := hslack'
        exact ⟨w0, x, heq0.symm, hw0, by simp [separated0, herr, semE]⟩
    | emore t ts =>
        intro x rest fuel lf hwf hclose hslack hlen hlf
        simp only [wfE, Bool.and_eq_true] at hwf
        simp only [szE] at hsz
        have hPTt : PT t := (IH (szT t) (by omega)).1 t le_rfl
        have hshape : renderE (.emore t ts) ++ rest =
            renderT t ++ (renderTail ts ++ rest) := by
          simp [renderE, List.append_assoc]
        rw [hshape] at hslack hlen hlf
        have hrest1 : RestOk (renderTail ts ++ rest) :=
          renderTail_RestOk ts hwf.2 hclose
        obtain ⟨w', r1, heq1, hw', hpv⟩ :=
          hPTt x (renderTail ts ++ rest) fuel hwf.1 hrest1 hslack hlen
        cases ts with
        | tnil =>
            have heq1' : rest = w' ++ r1 := by simpa [renderTail] using heq1
            obtain ⟨c, y, hdx, hcy⟩ :=
              dropWs_slack_close ⟨w', hw', heq1'.symm⟩ hclose
            cases lf with
            | zero => exact absurd hlf (Nat.not_lt_zero _)
            | succ lf' =>
                have hstop := sepLoop_stop (parse_value fuel) lf' [semT t] hdx
                  (by rcases hcy with rfl | rfl <;> decide)
                exact ⟨w', r1, heq1', hw',
                  by simp [separated0, hpv, hstop, semE, semTail]⟩
        | tcons wa wb t' ts' =>
            have hPTailts : PTail (.tcons wa wb t' ts') :=
              (IH (szTail (.tcons wa wb t' ts')) (by omega)).2.2.1 _ le_rfl
            have hb1 : (renderTail (.tcons wa wb t' ts') ++ rest).length < fuel := by
              simp only [List.length_append] at hlen ⊢
              omega
            have hb2 : (renderTail (.tcons wa wb t' ts') ++ rest).length < lf := by
              simp only [List.length_append] at hlf ⊢
              omega
            obtain ⟨w'', r2, heq2, hw'', hloop⟩ :=
              hPTailts [semT t] r1 rest fuel lf hwf.2 hclose ⟨w', hw', heq1.symm⟩
                hb1 hb2
            exact ⟨w'', r2, heq2, hw'',
              by simp [separated0, hpv, hloop, semE, semTail]⟩
  · -- PTail
    intro ts hsz
    cases ts with
    | tnil =>
        intro acc x rest fuel lf hwf hclose hslack hlen hlf
        have hslack' : WsSlack x rest := by simpa [renderTail] using hslack
        obtain ⟨c, y, hdx, hcy⟩ := dropWs_slack_close hslack' hclose
        obtain ⟨w0, hw0, heq0⟩ := hslack'
        cases lf with
        | zero => exact absurd hlf (Nat.not_lt_zero _)
        | succ lf' =>
            have hstop := sepLoop_stop (parse_value fuel) lf' acc hdx
              (by rcases hcy with rfl | rfl <;> decide)
            exact ⟨w0, x, heq0.symm, hw0, by simpa [semTail] using hstop⟩
    | tcons wa wb t' ts' =>
        intro acc x rest fuel lf hwf hclose hslack hlen hlf
        simp only [wfTail, Bool.and_eq_true] at hwf
        obtain ⟨⟨⟨hwa, hwb⟩, hwt⟩, hwts⟩ := hwf
        simp only [szTail] at hsz
        cases lf with
        | zero => exact absurd hlf (Nat.not_lt_zero _)
        | succ lf' =>
        have hshape : renderTail (.tcons wa wb t' ts') ++ rest =
            wa ++ ',' :: (wb ++ (renderT t' ++ (renderTail ts' ++ rest))) := by
          simp [renderTail, List.append_assoc]
        rw [hshape] at hslack hlen hlf
        have hsep := sep_with_space_hit ',' hwa (by decide) hslack
        have hslack2 := WsSlack_dropWs (renderT t' ++ (renderTail ts' ++ rest)) hwb
        have hPTt' : PT t' := (IH (szT t') (by omega)).1 _ le_rfl
        have hrest1 : RestOk (renderTail ts' ++ rest) :=
          renderTail_RestOk ts' hwts hclose
        have hb1 : (renderT t' ++ (renderTail ts' ++ rest)).length < fuel := by
          simp only [List.length_append, List.length_cons] at hlen ⊢
          omega
        obtain ⟨w', r1, heq1, hw', hpv⟩ :=
          hPTt' _ _ fuel hwt hrest1 hslack2 hb1
        have hPTail' : PTail ts' := (IH (szTail ts') (by omega)).2.2.1 _ le_rfl
        have hb2 : (renderTail ts' ++ rest).length < fuel := by
          simp only [List.length_append, List.length_cons] at hlen ⊢
          omega
        have hb3 : (renderTail ts' ++ rest).length < lf' := by
          simp only [List.length_append, List.length_cons] at hlf ⊢
          omega
        obtain ⟨w'', r2, heq2, hw'', hloop⟩ :=
          hPTail' (acc ++ [semT t']) r1 rest fuel lf' hwts hclose
            ⟨w', hw', heq1.symm⟩ hb2 hb3
        refine ⟨w'', r2, heq2, hw'', ?_⟩
        simp only [sepLoop, hsep, hpv, hloop, semTail]
        simp [List.append_assoc]
  · -- PP
    intro ps hsz
    cases ps with
    | pone k wa wb v =>
        intro rest fuel lf hwf hclose hlen hlf
        simp only [wfP, Bool.and_eq_true] at hwf
        obtain ⟨⟨⟨hk, hwa⟩, hwb⟩, hv⟩ := hwf
        simp only [szP] at hsz
        have hPTv : PT v := (IH (szT v) (by omega)).1 _ le_rfl
        have hb1 : (renderT v ++ rest).length < fuel := by
          simp only [renderP, List.length_append, List.length_cons] at hlen
          simp only [List.length_append]
          omega
        obtain ⟨w', r1, heq1, hw', hkv⟩ := parse_kv_render k wa wb rest fuel
          hPTv hv hk hwa hwb (CloseOk_RestOk hclose) hb1
        obtain ⟨c, y, hdx, hcy⟩ := dropWs_slack_close ⟨w', hw', heq1.symm⟩ hclose
        cases lf with
        | zero => exact absurd hlf (Nat.not_lt_zero _)
        | succ lf' =>
        have hstop := sepLoop_stop (parse_kv (parse_value fuel)) lf'
          [(k, semT v)] hdx (by rcases hcy with rfl | rfl <;> decide)
        refine ⟨w', r1, heq1, hw', ?_⟩
        have hkv' : parse_kv (parse_value fuel)
            (renderP (.pone k wa wb v) ++ rest) = .ok (k, semT v) r1 := hkv
        simp [separated1, hkv', hstop, semP]
    | pcons k wa wb v wc wd ps' =>
        intro rest fuel lf hwf hclose hlen hlf
        simp only [wfP, Bool.and_eq_true] at hwf
        obtain ⟨⟨⟨⟨⟨⟨hk, hwa⟩, hwb⟩, hv⟩, hwc⟩, hwd⟩, hps'⟩ := hwf
        simp only [szP] at hsz
        have hPTv : PT v := (IH (szT v) (by omega)).1 _ le_rfl
        have hshape : renderP (.pcons k wa wb v wc wd ps') ++ rest =
            '"' :: (k ++ '"' :: (wa ++ ':' :: (wb ++ renderT v))) ++
              (wc ++ ',' :: (wd ++ (renderP ps' ++ rest))) := by
          simp [renderP, List.append_assoc]
        have hrkv : RestOk (wc ++ ',' :: (wd ++ (renderP ps' ++ rest))) :=
          RestOk_ws_cons wc ',' _ hwc (Or.inr (Or.inl rfl))
        have hb1 : (renderT v ++ (wc ++ ',' :: (wd ++ (renderP ps' ++ rest)))).length
            < fuel := by
          simp only [renderP, List.length_append, List.length_cons] at hlen
          simp only [List.length_append, List.length_cons]
          omega
        obtain ⟨w', r1, heq1, hw', hkv⟩ := parse_kv_render k wa wb
          (wc ++ ',' :: (wd ++ (renderP ps' ++ rest))) fuel hPTv hv hk hwa hwb
          hrkv hb1
        have hPPL' : PPL ps' := (IH (szP ps') (by omega)).2.2.2.2 _ le_rfl
        have hb2 : (wc ++ ',' :: (wd ++ (renderP ps' ++ rest))).length < fuel := by
          simp only [renderP, List.length_append, List.length_cons] at hlen
          simp only [List.length_append, List.length_cons]
          omega
        have hb3 : (wc ++ ',' :: (wd ++ (renderP ps' ++ rest))).length < lf := by
          simp only [renderP, List.length_append, List.length_cons] at hlf
          simp only [List.length_append, List.length_cons]
          omega
        obtain ⟨w'', r2, heq2, hw'', hloop⟩ := hPPL' [(k, semT v)] r1 rest fuel lf
          wc wd hps' hwc hwd hclose ⟨w', hw', heq1.symm⟩ hb2 hb3
        refine ⟨w'', r2, heq2, hw'', ?_⟩
        have hkvN := hkv
        simp only [List.cons_append, List.append_assoc] at hkvN
        simp [separated1, renderP, List.append_assoc, hkvN, hloop, semP]
  · -- PPL
    intro ps hsz
    intro acc x rest fuel lf wc wd hwf hwc hwd hclose hslack hlen hlf
    cases lf with
    | zero => exact absurd hlf (Nat.not_lt_zero _)
    | succ lf' =>
    have hsep := sep_with_space_hit ',' hwc (by decide) hslack
    obtain ⟨X, hX⟩ := renderP_cons ps
    have hi2 : dropWs (wd ++ (renderP ps ++ rest)) = renderP ps ++ rest := by
      rw [dropWs_ws_append hwd, hX, List.cons_append, dropWs_not_ws (by decide)]
    cases ps with
    | pone k wa wb v =>
        simp only [wfP, Bool.and_eq_true] at hwf
        obtain ⟨⟨⟨hk, hwa⟩, hwb⟩, hv⟩ := hwf
        simp only [szP] at hsz
        have hPTv : PT v := (IH (szT v) (by omega)).1 _ le_rfl
        have hb1 : (renderT v ++ rest).length < fuel := by
          simp only [renderP, List.length_append, List.length_cons] at hlen
          simp only [List.length_append]
          omega
        obtain ⟨w', r1, heq1, hw', hkv⟩ := parse_kv_render k wa wb rest fuel
          hPTv hv hk hwa hwb (CloseOk_RestOk hclose) hb1
        have hkv' : parse_kv (parse_value fuel)
            (renderP (.pone k wa wb v) ++ rest) = .ok (k, semT v) r1 := hkv
        obtain ⟨c, y, hdx, hcy⟩ := dropWs_slack_close ⟨w', hw', heq1.symm⟩ hclose
        have hlf2 : 0 < lf' := by
          simp only [renderP, List.length_append, List.length_cons] at hlf
          omega
        obtain ⟨lf'', rfl⟩ : ∃ lf'', lf' = lf'' + 1 := by
          cases lf' with
          | zero => exact absurd hlf2 (by omega)
          | succ q => exact ⟨q, rfl⟩
        have hmiss := sep_with_space_miss ',' hdx
          (by rcases hcy with rfl | rfl <;> decide)
        refine ⟨w', r1, heq1, hw', ?_⟩
        simp [sepLoop, hsep, hi2, hkv', hmiss, semP]
    | pcons k wa wb v wc' wd' ps'' =>
        simp only [wfP, Bool.and_eq_true] at hwf
        obtain ⟨⟨⟨⟨⟨⟨hk, hwa⟩, hwb⟩, hv⟩, hwc'⟩, hwd'⟩, hps''⟩ := hwf
        simp only [szP] at hsz
        have hPTv : PT v := (IH (szT v) (by omega)).1 _ le_rfl
        have hshape : renderP (.pcons k wa wb v wc' wd' ps'') ++ rest =
            '"' :: (k ++ '"' :: (wa ++ ':' :: (wb ++ renderT v))) ++
              (wc' ++ ',' :: (wd' ++ (renderP ps'' ++ rest))) := by
          simp [renderP, List.append_assoc]
        have hrkv : RestOk (wc' ++ ',' :: (wd' ++ (renderP ps'' ++ rest))) :=
          RestOk_ws_cons wc' ',' _ hwc' (Or.inr (Or.inl rfl))
        have hb1 : (renderT v ++
            (wc' ++ ',' :: (wd' ++ (renderP ps'' ++ rest)))).length < fuel := by
          simp only [renderP, List.length_append, List.length_cons] at hlen
          simp only [List.length_append, List.length_cons]
          omega
        obtain ⟨w', r1, heq1, hw', hkv⟩ := parse_kv_render k wa wb
          (wc' ++ ',' :: (wd' ++ (renderP ps'' ++ rest))) fuel hPTv hv hk hwa hwb
          hrkv hb1
        have hkv' : parse_kv (parse_value fuel)
            (renderP (.pcons k wa wb v wc' wd' ps'') ++ rest) =
            .ok (k, semT v) r1 := by
          rw [hshape]
          exact hkv
        have hPPL'' : PPL ps'' := (IH (szP ps'') (by omega)).2.2.2.2 _ le_rfl
        have hb2 : (wc' ++ ',' :: (wd' ++ (renderP ps'' ++ rest))).length < fuel := by
          simp only [renderP, List.length_append, List.length_cons] at hlen
          simp only [List.length_append, List.length_cons]
          omega
        have hb3 : (wc' ++ ',' :: (wd' ++ (renderP ps'' ++ rest))).length < lf' := by
          simp only [renderP, List.length_append, List.length_cons] at hlf
          simp only [List.length_append, List.length_cons]
          omega
        obtain ⟨w'', r2, heq2, hw'', hloop⟩ := hPPL'' (acc ++ [(k, semT v)]) r1
          rest fuel lf' wc' wd' hps'' hwc' hwd' hclose ⟨w', hw', heq1.symm⟩ hb2 hb3
        refine ⟨w'', r2, heq2, hw'', ?_⟩
        simp only [sepLoop, hsep, hi2, hkv', hloop, semP]
        simp [List.append_assoc]

/-- Top-level corollary: a well-formed rendered tree parses to its
semantics. -/
theorem render_parse (t : JTree) (h : wfT t = true) :
    parse_json (renderT t) = .ok (semT t) := by
  have hPT : PT t := (render_parse_main (szT t)).1 t le_rfl
  obtain ⟨w', r', heq, hw', hok⟩ := hPT (renderT t) [] ((renderT t).length + 1) h
    (Or.inl rfl) ⟨[], rfl, by simp⟩ (by simp)
  simp [parse_json, hok]

/-- Erasing whitespace annotations changes neither the semantics nor
well-formedness. -/
theorem strip_props : ∀ n : ℕ,
    (∀ t, szT t ≤ n →
      semT (stripT t) = semT t ∧ (wfT t = true → wfT (stripT t) = true)) ∧
    (∀ es, szE es ≤ n →
      semE (stripE es) = semE es ∧ (wfE es = true → wfE (stripE es) = true)) ∧
    (∀ ts, szTail ts ≤ n →
      semTail (stripTail ts) = semTail ts ∧
        (wfTail ts = true → wfTail (stripTail ts) = true)) ∧
    (∀ ps, szP ps ≤ n →
      semP (stripP ps) = semP ps ∧ (wfP ps = true → wfP (stripP ps) = true)) := by
  intro n
  induction n using Nat.strongRecOn with
  | ind n IH =>
  refine ⟨?_, ?_, ?_, ?_⟩
  · intro t hsz
    cases t with
    | jnull => exact ⟨rfl, fun h => h⟩
    | jbool b => exact ⟨rfl, fun h => h⟩
    | jnum neg ds nt => exact ⟨rfl, fun h => h⟩
    | jstr s => exact ⟨rfl, fun h => h⟩
    | jarr w1 w2 es w3 w4 =>
        simp only [szT] at hsz
        obtain ⟨hsem, hwf⟩ := (IH (szE es) (by omega)).2.1 es le_rfl
        constructor
        · simp [stripT, semT, hsem]
        · intro h
          simp only [wfT, Bool.and_eq_true] at h
          simp [stripT, wfT, wsOk, hwf h.2]
    | jobj w1 w2 ps w3 w4 =>
        simp only [szT] at hsz
        obtain ⟨hsem, hwf⟩ := (IH (szP ps) (by omega)).2.2.2 ps le_rfl
        constructor
        · simp [stripT, semT, hsem]
        · intro h
          simp only [wfT, Bool.and_eq_true] at h
          simp [stripT, wfT, wsOk, hwf h.2]
  · intro es hsz
    cases es with
    | enil => exact ⟨rfl, fun h => h⟩
    | emore t ts =>
        simp only [szE] at hsz
        obtain ⟨hs1, hw1⟩ := (IH (szT t) (by omega)).1 t le_rfl
        obtain ⟨hs2, hw2⟩ := (IH (szTail ts) (by omega)).2.2.1 ts le_rfl
        constructor
        · simp [stripE, semE, hs1, hs2]
        · intro h
          simp only [wfE, Bool.and_eq_true] at h
          simp [stripE, wfE, hw1 h.1, hw2 h.2]
  · intro ts hsz
    cases ts with
    | tnil => exact ⟨rfl, fun h => h⟩
    | tcons wa wb t ts' =>
        simp only [szTail] at hsz
        obtain ⟨hs1, hw1⟩ := (IH (szT t) (by omega)).1 t le_rfl
        obtain ⟨hs2, hw2⟩ := (IH (szTail ts') (by omega)).2.2.1 ts' le_rfl
        constructor
        · simp [stripTail, semTail, hs1, hs2]
        · intro h
          simp only [wfTail, Bool.and_eq_true] at h
          simp [stripTail, wfTail, wsOk, hw1 h.1.2, hw2 h.2]
  · intro ps hsz
    cases ps with
    | pone k wa wb v =>
        simp only [szP] at hsz
        obtain ⟨hs1, hw1⟩ := (IH (szT v) (by omega)).1 v le_rfl
        constructor
        · simp [stripP, semP, hs1]
        · intro h
          simp only [wfP, Bool.and_eq_true] at h
          simp [stripP, wfP, wsOk, h.1.1.1, hw1 h.2]
    | pcons k wa wb v wc wd ps' =>
        simp only [szP] at hsz
        obtain ⟨hs1, hw1⟩ := (IH (szT v) (by omega)).1 v le_rfl
        obtain ⟨hs2, hw2⟩ := (IH (szP ps') (by omega)).2.2.2 ps' le_rfl
        constructor
        · simp [stripP, semP, hs1, hs2]
        · intro h
          simp only [wfP, Bool.and_eq_true] at h
          simp [stripP, wfP, wsOk, h.1.1.1.1.1.1, hw1 h.1.1.1.2, hw2 h.2]

theorem sem_strip (t : JTree) : semT (stripT t) = semT t :=
  ((strip_props (szT t)).1 t le_rfl).1

theorem wf_strip {t : JTree} (h : wfT t = true) : wfT (stripT t) = true :=
  ((strip_props (szT t)).1 t le_rfl).2 h

/-! ### Claim theorems: objects and whitespace -/

/-- C8: an object literal whose two pairs carry the same key parses without
error, and the resulting map binds the key to the later pair's value (the
earlier binding is overwritten, as `HashMap::insert` does). -/
theorem C8_duplicate_keys (k : List Char) (v1 v2 : JTree)
    (hk : k.all (fun c => !(c == '"')) = true)
    (h1 : wfT v1 = true) (h2 : wfT v2 = true) :
    parse_json (renderT
        (.jobj [] [] (.pcons k [] [] v1 [] [] (.pone k [] [] v2)) [] [])) =
      .ok (.Object [(k, semT v2)]) ∧
    List.lookup k [(k, semT v2)] = some (semT v2) := by
  have hwf : wfT
      (.jobj [] [] (.pcons k [] [] v1 [] [] (.pone k [] [] v2)) [] []) = true := by
    simp [wfT, wfP, wsOk, hk, h1, h2]
  have h := render_parse _ hwf
  have hbm : buildMap [(k, semT v1), (k, semT v2)] = [(k, semT v2)] := by
    simp [buildMap, insKV]
  constructor
  · rw [h]
    simp [semT, semP, hbm]
  · simp [List.lookup]

/-- C8 (witness): `{"a": true, "a": null}` parses to the map binding `"a"`
to `Null`. -/
theorem C8_duplicate_keys_witness :
    parse_json (renderT
        (.jobj [] [] (.pcons ['a'] [] [] (.jbool true) [] []
          (.pone ['a'] [] [] .jnull)) [] [])) =
      .ok (.Object [(['a'], .Null)]) ∧
    List.lookup ['a'] [(['a'], JsonValue.Null)] = some JsonValue.Null :=
  C8_duplicate_keys ['a'] (.jbool true) .jnull (by decide) (by decide) (by decide)

/-- C9 (amended): inserting arbitrary whitespace runs immediately around the
structural commas, colons, brackets and braces of a grammar-shaped input —
every position the grammar admits whitespace, but not inside string
literals — does not change the parse result, and the parse succeeds: a
whitespace-annotated literal tree parses exactly like its whitespace-free
counterpart. -/
theorem C9_amended (t : JTree) (h : wfT t = true) :
    parse_json (renderT t) = parse_json (renderT (stripT t)) ∧
    parse_json (renderT (stripT t)) = .ok (semT t) := by
  have ha := render_parse t h
  have hb := render_parse (stripT t) (wf_strip h)
  rw [sem_strip] at hb
  exact ⟨ha.trans hb.symm, hb⟩

/-- C9 (witness): the amended theorem at `"[ 1 ,\ntrue ]"` versus
`"[1,true]"`. -/
theorem C9_amended_witness :
    parse_json (renderT (.jarr [' '] [' ']
        (.emore (.jnum false ['1'] .tint) (.tcons [' '] ['\n'] (.jbool true) .tnil))
        [' '] [])) =
      parse_json (renderT (stripT (.jarr [' '] [' ']
        (.emore (.jnum false ['1'] .tint) (.tcons [' '] ['\n'] (.jbool true) .tnil))
        [' '] []))) ∧
    parse_json (renderT (stripT (.jarr [' '] [' ']
        (.emore (.jnum false ['1'] .tint) (.tcons [' '] ['\n'] (.jbool true) .tnil))
        [' '] []))) =
      .ok (semT (.jarr [' '] [' ']
        (.emore (.jnum false ['1'] .tint) (.tcons [' '] ['\n'] (.jbool true) .tnil))
        [' '] [])) :=
  C9_amended (.jarr [' '] [' ']
    (.emore (.jnum false ['1'] .tint) (.tcons [' '] ['\n'] (.jbool true) .tnil))
    [' '] []) (by decide)

end JsonRs
